import Mathlib

/-!
Verification development for the recipenet2 ingredient-consolidation pipeline.

The Python sources `scripts/analyzeConsolidation.py` and
`scripts/finalizeConsolidation.py` are shallowly embedded here.  Python
strings are modelled as `List Char` (`Str`), Python dicts as
insertion-ordered association lists, Python sets as insertion-ordered
deduplicated lists, and Python float arithmetic as exact fraction
arithmetic (`Frac` below; every comparison appearing in the claims is
numerically robust, so the exact model agrees with the float code).
`sorted` is modelled by `List.insertionSort`, which is stable, like
Python's sort; a stable sort of a list under a total preorder is unique,
so this is the same list Python produces.
-/

/-- Python strings are modelled as lists of characters. -/
abbrev Str := List Char

/-- The characters Python treats as whitespace for `str.strip`, `str.split`
and the regex class matched by a backslash-s (ASCII fragment). -/
def pyWsChars : List Char := [' ', '\t', '\n', '\r', '\x0b', '\x0c']

/-- Whitespace test used by `strip`, `split` and whitespace regexes. -/
def isPyWs (c : Char) : Bool := pyWsChars.contains c

/-- The regex word class (backslash-w), ASCII fragment: alphanumeric or
underscore. -/
def wordChar (c : Char) : Bool := c.isAlphanum || c = '_'

/-- Characters kept by the character filter in `clean_ingredient_name`
(the regex keeps word characters, whitespace, hyphen, comma, period). -/
def keepChar (c : Char) : Bool := wordChar c || isPyWs c || c = '-' || c = ',' || c = '.'

/-- One step of `re.sub(r'[^\w\s\-\,\.]', ' ', name)`: a non-kept character
becomes a space. -/
def substChar (c : Char) : Char := if keepChar c then c else ' '

/-- `str.strip()` from the left: drop leading whitespace. -/
def stripL (l : Str) : Str := l.dropWhile isPyWs

/-- `str.strip()` from the right: drop trailing whitespace. -/
def stripR (l : Str) : Str := (l.reverse.dropWhile isPyWs).reverse

/-- Python `str.strip()`. -/
def pyStrip (l : Str) : Str := stripR (stripL l)

/-- `re.sub(r'\s+', ' ', name)`: every maximal whitespace run becomes a
single space (each whitespace character is dropped while its successor is
also whitespace, and the last of a run becomes the single space). -/
def collapseWs : Str → Str
  | [] => []
  | [c] => if isPyWs c then [' '] else [c]
  | c :: d :: rest =>
    if isPyWs c then
      if isPyWs d then collapseWs (d :: rest)
      else ' ' :: collapseWs (d :: rest)
    else c :: collapseWs (d :: rest)

/-- Python `str.split()` with no argument: split on whitespace runs,
dropping empty tokens. -/
def splitWs : Str → List Str
  | [] => []
  | [c] => if isPyWs c then [] else [[c]]
  | c :: d :: rest =>
    if isPyWs c then splitWs (d :: rest)
    else if isPyWs d then [c] :: splitWs rest
    else
      match splitWs (d :: rest) with
      | [] => [[c]]
      | t :: ts => (c :: t) :: ts

/-- Splitting a string into lines at newline characters, as reading the
text back line by line does. -/
def splitNl : Str → List Str
  | [] => [[]]
  | c :: rest =>
    if c = '\n' then [] :: splitNl rest
    else
      match splitNl rest with
      | [] => [[c]]
      | l :: ls => (c :: l) :: ls

/-- Python `line.split(',', 1)` when a comma is present: the part before
the first comma and the part after it. -/
def splitFirstComma : Str → Str × Str
  | [] => ([], [])
  | c :: rest =>
    if c = ',' then ([], rest)
    else
      ((splitFirstComma rest).1.cons c, (splitFirstComma rest).2)

/-- Lexicographic comparison of strings by code point, as Python compares
strings (used to model `sorted(..., key=...)` on names). -/
def strLe : Str → Str → Bool
  | [], _ => true
  | _ :: _, [] => false
  | a :: as, b :: bs => if a = b then strLe as bs else decide (a < b)

/- ----------------------------------------------------------------
   scripts/analyzeConsolidation.py
   ---------------------------------------------------------------- -/

/-- MIN_WORD_LENGTH = 3 -/
def MIN_WORD_LENGTH : Nat := 3

/-- COMMON_ARTICLES = {'THE', 'AND', 'OR', 'OF', 'IN', 'ON', 'AT', 'TO', 'FOR', 'WITH'} -/
def COMMON_ARTICLES : List Str :=
  ["THE", "AND", "OR", "OF", "IN", "ON", "AT", "TO", "FOR", "WITH"].map String.data

/-- MIN_GROUP_SIZE = 2 -/
def MIN_GROUP_SIZE : Nat := 2

/-- Exact value of a Python float expression of the analysis script: a
fraction with a positive denominator.  All float expressions in the
script are ratios of small integers, and every comparison performed on
them is numerically robust, so exact fractions model them faithfully. -/
structure Frac where
  num : ℤ
  den : ℕ+
deriving DecidableEq, Repr

/-- The fraction `n / 1`. -/
def Frac.ofInt (n : ℤ) : Frac := ⟨n, 1⟩

/-- Exact addition of fractions (no reduction of the result). -/
def Frac.add (a b : Frac) : Frac := ⟨a.num * b.den.val + b.num * a.den.val, a.den * b.den⟩

/-- Exact multiplication of fractions (no reduction of the result). -/
def Frac.mul (a b : Frac) : Frac := ⟨a.num * b.num, a.den * b.den⟩

/-- Value comparison of fractions, by cross-multiplication (denominators
are positive by construction). -/
def Frac.le (a b : Frac) : Prop := a.num * b.den.val ≤ b.num * a.den.val

/-- Strict value comparison of fractions. -/
def Frac.lt (a b : Frac) : Prop := a.num * b.den.val < b.num * a.den.val

instance : DecidableRel Frac.le := fun a b =>
  inferInstanceAs (Decidable (a.num * b.den.val ≤ b.num * a.den.val))

instance : DecidableRel Frac.lt := fun a b =>
  inferInstanceAs (Decidable (a.num * b.den.val < b.num * a.den.val))

/-- The rational value of a fraction, for readable theorem statements. -/
def Frac.val (a : Frac) : ℚ := (a.num : ℚ) / (a.den.val : ℚ)

/-- MAX_INGREDIENT_PERCENTAGE = 0.1 -/
def MAX_INGREDIENT_PERCENTAGE : Frac := ⟨1, ⟨10, by decide⟩⟩

/-- MIN_SCORE_THRESHOLD = 30 -/
def MIN_SCORE_THRESHOLD : Frac := Frac.ofInt 30

/-- MAX_FREQUENCY_SCORE = 100 -/
def MAX_FREQUENCY_SCORE : Nat := 100

/-- BEGINNING_WORD_BONUS = 30 -/
def BEGINNING_WORD_BONUS : Frac := Frac.ofInt 30

/-- MEDIUM_WORD_BONUS = 10 -/
def MEDIUM_WORD_BONUS : Frac := Frac.ofInt 10

/-- LONG_WORD_BONUS = 20 -/
def LONG_WORD_BONUS : Frac := Frac.ofInt 20

/-- COHERENCE_MULTIPLIER = 40 -/
def COHERENCE_MULTIPLIER : Frac := Frac.ofInt 40

/-- MAX_PARENTS_PER_INGREDIENT = 3 -/
def MAX_PARENTS_PER_INGREDIENT : Nat := 3

/-- MIN_SECONDARY_PARENT_SCORE = 50 (read by the assignment loop into a
local that the rest of the source never uses, so it has no semantic
effect). -/
def MIN_SECONDARY_PARENT_SCORE : Frac := Frac.ofInt 50

/-- PROCESSING_TERM_THRESHOLD = 0.15 -/
def PROCESSING_TERM_THRESHOLD : Frac := ⟨15, ⟨100, by decide⟩⟩

/-- BASE_WORD_DIVERSITY_RATIO = 0.3 (renamed: Lean-side constraints on
identifier suffixes forbid the original name). -/
def BASE_WORD_DIVERSITY_RATE : Frac := ⟨3, ⟨10, by decide⟩⟩

/-- `clean_ingredient_name`: uppercase and strip, replace characters
outside the kept class by spaces, collapse whitespace runs, strip. -/
def clean_ingredient_name (name : Str) : Str :=
  pyStrip (collapseWs ((pyStrip (name.map Char.toUpper)).map substChar))

/-- `extract_meaningful_words`: tokens of the cleaned name that are long
enough and are not common articles. -/
def extract_meaningful_words (ingredient_name : Str)
    (min_word_length : Nat := MIN_WORD_LENGTH) : List Str :=
  (splitWs (clean_ingredient_name ingredient_name)).filter
    (fun word => decide (min_word_length ≤ word.length) && !COMMON_ARTICLES.contains word)

/-- A child entry of a consolidation group: the dict
`{'name': ..., 'food_group': ...}` used by both scripts. -/
structure ChildEntry where
  name : Str
  food_group : Str
deriving DecidableEq, Repr

/-- Python dict lookup in an insertion-ordered association list. -/
def getVal {α : Type} : List (Str × α) → Str → Option α
  | [], _ => none
  | (k, v) :: rest, w => if k = w then some v else getVal rest w

/-- `Counter`/`defaultdict(int)` increment: `m[w] += 1`, with insertion
order preserved and missing keys starting at 0. -/
def addCount : List (Str × Nat) → Str → List (Str × Nat)
  | [], w => [(w, 1)]
  | (k, n) :: rest, w =>
    if k = w then (k, n + 1) :: rest else (k, n) :: addCount rest w

/-- Count lookup defaulting to 0, as `Counter`/`defaultdict(int)` reads do. -/
def getCount (m : List (Str × Nat)) (w : Str) : Nat := (getVal m w).getD 0

/-- `word_to_ingredients[word].add(name)`: a `defaultdict(set)` update,
modelled as an insertion-ordered deduplicated list per key. -/
def addPosting : List (Str × List Str) → Str → Str → List (Str × List Str)
  | [], w, name => [(w, [name])]
  | (k, v) :: rest, w, name =>
    if k = w then (k, if name ∈ v then v else v ++ [name]) :: rest
    else (k, v) :: addPosting rest w name

/-- `find_word_frequencies`: one pass over the ingredient rows
`(pd_name, food_group)`; every token occurrence bumps the word's counter,
and the ingredient name is added to the word's posting set. -/
def find_word_frequencies (ingredients_df : List (Str × Str)) :
    List (Str × Nat) × List (Str × List Str) :=
  ingredients_df.foldl
    (fun acc row =>
      (extract_meaningful_words row.1).foldl
        (fun acc2 word => (addCount acc2.1 word, addPosting acc2.2 word row.1))
        acc)
    ([], [])

/-- `calculate_word_coherence`: ratio of shared non-grouping words among
the postings, scaled by the coherence multiplier. -/
def calculate_word_coherence (word : Str) (ingredients_with_word : List Str) : Frac :=
  if ingredients_with_word.length < MIN_GROUP_SIZE then Frac.ofInt 0
  else
    let other_words_counter :=
      ingredients_with_word.foldl
        (fun m ingredient =>
          (extract_meaningful_words ingredient).foldl
            (fun m2 w => if w ≠ word then addCount m2 w else m2) m)
        ([] : List (Str × Nat))
    let total_other_words : Nat := (other_words_counter.map (fun p => p.2)).sum
    if total_other_words = 0 then Frac.ofInt 0
    else
      let shared_words := other_words_counter.filter (fun p => 1 < p.2)
      let coherence_ratio : Frac :=
        if h : other_words_counter = [] then Frac.ofInt 0
        else ⟨(shared_words.length : ℤ), ⟨other_words_counter.length, List.length_pos.mpr h⟩⟩
      coherence_ratio.mul COHERENCE_MULTIPLIER

/-- `calculate_grouping_potential`: frequency base score, coherence,
beginning-of-name bonus and word-length bonus, with the
too-rare/too-generic early exits. -/
def calculate_grouping_potential (word : Str) (ingredients_with_word : List Str)
    (all_ingredients : List Str) : Frac :=
  let num_ingredients := ingredients_with_word.length
  if h : num_ingredients < MIN_GROUP_SIZE then Frac.ofInt 0
  else if Frac.lt ((Frac.ofInt all_ingredients.length).mul MAX_INGREDIENT_PERCENTAGE)
      (Frac.ofInt num_ingredients) then Frac.ofInt 0
  else
    let base : Frac := Frac.ofInt (min (num_ingredients * 10) MAX_FREQUENCY_SCORE)
    let coherence := calculate_word_coherence word ingredients_with_word
    let beginning_appearances :=
      (ingredients_with_word.filter
        (fun ing => (word ++ [' ']).isPrefixOf (clean_ingredient_name ing))).length
    let beginning_ratio : Frac :=
      ⟨beginning_appearances,
        ⟨num_ingredients, Nat.lt_of_lt_of_le (by decide) (Nat.not_lt.mp h)⟩⟩
    let length_bonus : Frac :=
      if 6 ≤ word.length then LONG_WORD_BONUS
      else if 4 ≤ word.length then MEDIUM_WORD_BONUS
      else Frac.ofInt 0
    ((base.add coherence).add (beginning_ratio.mul BEGINNING_WORD_BONUS)).add length_bonus

/-- `identify_processing_terms_dynamically`: words whose frequency exceeds
a fraction of the distinct-word count and that co-occur with many distinct
base words. -/
def identify_processing_terms_dynamically (word_frequency : List (Str × Nat))
    (word_to_ingredients : List (Str × List Str))
    (threshold_ratio : Frac := PROCESSING_TERM_THRESHOLD) : List Str :=
  word_frequency.foldl
    (fun processing_terms p =>
      if Frac.lt ((Frac.ofInt word_to_ingredients.length).mul threshold_ratio)
          (Frac.ofInt p.2) then
        let ingredients := (getVal word_to_ingredients p.1).getD []
        let base_word_diversity :=
          ingredients.foldl
            (fun s ingredient =>
              (extract_meaningful_words ingredient).foldl
                (fun s2 w =>
                  if w ≠ p.1 ∧ 4 ≤ w.length then
                    (if w ∈ s2 then s2 else s2 ++ [w])
                  else s2) s)
            []
        if Frac.lt ((Frac.ofInt p.2).mul BASE_WORD_DIVERSITY_RATE)
            (Frac.ofInt base_word_diversity.length) then
          processing_terms ++ [p.1]
        else processing_terms
      else processing_terms)
    []

/-- The retained candidate map `word_scores`, in the insertion order of
`word_to_ingredients` (a Python dict iterates in key-insertion order). -/
def candidate_word_scores (ingredients_df : List (Str × Str)) : List (Str × Frac) :=
  let fw := find_word_frequencies ingredients_df
  let processing_terms :=
    identify_processing_terms_dynamically fw.1 fw.2
  fw.2.foldl
    (fun word_scores p =>
      if p.1 ∈ processing_terms then word_scores
      else
        let score :=
          calculate_grouping_potential p.1 p.2 (ingredients_df.map (·.1))
        if Frac.le MIN_SCORE_THRESHOLD score then word_scores ++ [(p.1, score)]
        else word_scores)
    []

/-- The stable descending-score order used on `word_scores.items()`. -/
def scoreGe (a b : Str × Frac) : Prop := Frac.le b.2 a.2

instance : DecidableRel scoreGe := fun a b => inferInstanceAs (Decidable (Frac.le b.2 a.2))

instance : IsTotal (Str × Frac) scoreGe :=
  ⟨fun a b => Int.le_total (b.2.num * a.2.den.val) (a.2.num * b.2.den.val)⟩

instance : IsTrans (Str × Frac) scoreGe := by
  refine ⟨fun a b c h1 h2 => ?_⟩
  have hb : (0 : ℤ) < b.2.den.val := Int.natCast_pos.mpr b.2.den.2
  have h1' := mul_le_mul_of_nonneg_right h2 (le_of_lt (Int.natCast_pos.mpr a.2.den.2))
  have h2' := mul_le_mul_of_nonneg_right h1 (le_of_lt (Int.natCast_pos.mpr c.2.den.2))
  have : c.2.num * (a.2.den.val : ℤ) * b.2.den.val ≤ a.2.num * c.2.den.val * b.2.den.val := by
    calc c.2.num * (a.2.den.val : ℤ) * b.2.den.val
        = c.2.num * b.2.den.val * a.2.den.val := by ring
      _ ≤ b.2.num * c.2.den.val * a.2.den.val := h1'
      _ = b.2.num * a.2.den.val * c.2.den.val := by ring
      _ ≤ a.2.num * b.2.den.val * c.2.den.val := h2'
      _ = a.2.num * c.2.den.val * b.2.den.val := by ring
  exact le_of_mul_le_mul_right this hb

/-- `sorted(word_scores.items(), key=lambda x: x[1], reverse=True)`:
a stable sort putting higher scores first (`insertionSort` is stable,
like Python's sort, and a stable sort of a total preorder is unique). -/
def sorted_candidate_words (ingredients_df : List (Str × Str)) : List (Str × Frac) :=
  (candidate_word_scores ingredients_df).insertionSort scoreGe

/-- First food group of the first dataframe row carrying this ingredient
name (`ingredients_df[ingredients_df['pd_name'] == ingredient]['food_group'].iloc[0]`). -/
def lookup_food_group (ingredients_df : List (Str × Str)) (ingredient : Str) : Str :=
  ((ingredients_df.find? (fun r => r.1 = ingredient)).map (·.2)).getD []

/-- One step of the greedy assignment loop in `find_consolidation_groups`:
the state is the group list built so far and the per-ingredient parent
counter. -/
def assign_word (ingredients_df : List (Str × Str))
    (word_to_ingredients : List (Str × List Str))
    (st : List (Str × List ChildEntry) × List (Str × Nat)) (p : Str × Frac) :
    List (Str × List ChildEntry) × List (Str × Nat) :=
  let ingredients_with_word := (getVal word_to_ingredients p.1).getD []
  let available_ingredients :=
    ingredients_with_word.filter
      (fun ing => decide (getCount st.2 ing < MAX_PARENTS_PER_INGREDIENT))
  if 2 ≤ available_ingredients.length then
    (st.1 ++
      [(p.1,
        available_ingredients.map
          (fun ing => ⟨ing, lookup_food_group ingredients_df ing⟩))],
      available_ingredients.foldl (fun c ing => addCount c ing) st.2)
  else st

/-- `find_consolidation_groups`: score candidate words, sort them, then
greedily build groups while capping parents per ingredient. -/
def find_consolidation_groups (ingredients_df : List (Str × Str)) :
    List (Str × List ChildEntry) :=
  let w2i := (find_word_frequencies ingredients_df).2
  ((sorted_candidate_words ingredients_df).foldl
    (assign_word ingredients_df w2i) ([], [])).1

/-- The fixed comment header written at the top of the proposal file by
`generate_consolidation_proposal` (each line starts with '#', so parsing
skips all of them). -/
def proposalHeaderLines : List Str :=
  ["# Ingredient Consolidation Proposal".data,
   "# ".data,
   "# This file contains proposed ingredient consolidations.".data,
   "# Each section represents a potential parent ingredient with its children.".data,
   "# ".data,
   "# The same ingredient can appear under multiple parent sections.".data,
   "# ".data,
   "# To DISABLE a consolidation group, comment out the entire section".data,
   "# by adding ".data ++ [Char.ofNat 39, '#', Char.ofNat 39] ++
     " at the beginning of each line".data,
   "# ".data,
   "# To REMOVE specific children from a group, comment out just those lines.".data,
   "# ".data,
   "# Format:".data,
   "# [PARENT_INGREDIENT_NAME]".data,
   "# child_ingredient_name,food_group".data,
   "# ".data,
   "# After editing, run finalizeConsolidation.py to process this file.".data,
   "# ".data]

/-- The stable descending-size order used on the group list. -/
def sizeGe (a b : Str × List ChildEntry) : Prop := b.2.length ≤ a.2.length

instance : DecidableRel sizeGe := fun a b => inferInstanceAs (Decidable (b.2.length ≤ a.2.length))

/-- Alphabetical order on child names, used inside each serialized group. -/
def nameLe (a b : ChildEntry) : Prop := strLe a.name b.name = true

instance : DecidableRel nameLe := fun a b => inferInstanceAs (Decidable (strLe a.name b.name = true))

/-- The body lines written by `generate_consolidation_proposal`: groups
sorted by child count (descending, stable), children sorted by name, one
blank separator line after each group. -/
def proposalBodyLines (consolidation_groups : List (Str × List ChildEntry)) : List Str :=
  (consolidation_groups.insertionSort sizeGe).flatMap
    (fun g =>
      ('[' :: g.1 ++ [']']) ::
        ((g.2.insertionSort nameLe).map
          (fun c => c.name ++ ',' :: c.food_group)) ++ [([] : Str)])

/-- `generate_consolidation_proposal` as the text written to the proposal
file: header comment lines then the group sections, each written line
followed by a newline. -/
def generate_consolidation_proposal (consolidation_groups : List (Str × List ChildEntry)) : Str :=
  (proposalHeaderLines ++ proposalBodyLines consolidation_groups).flatMap
    (fun l => l ++ ['\n'])

/- ----------------------------------------------------------------
   scripts/finalizeConsolidation.py
   ---------------------------------------------------------------- -/

/-- Python dict assignment `m[k] = v`: overwrite in place if the key
exists, otherwise append. -/
def setKey {α : Type} : List (Str × α) → Str → α → List (Str × α)
  | [], k, v => [(k, v)]
  | (k0, v0) :: rest, k, v =>
    if k0 = k then (k0, v) :: rest else (k0, v0) :: setKey rest k v

/-- `m[k].append(x)` on the entry of key `k`. -/
def appendVal : List (Str × List ChildEntry) → Str → ChildEntry →
    List (Str × List ChildEntry)
  | [], _, _ => []
  | (k0, v0) :: rest, k, x =>
    if k0 = k then (k0, v0 ++ [x]) :: rest else (k0, v0) :: appendVal rest k x

/-- The parser state of `parse_consolidation_proposal`: the dict of
consolidations built so far and the current parent section. -/
structure ParseState where
  m : List (Str × List ChildEntry)
  cur : Option Str
deriving Repr, DecidableEq

/-- One line of `parse_consolidation_proposal`: strip, skip blanks and
comments, open a section on `[...]`, otherwise record a comma line under
the current parent. -/
def parse_line (st : ParseState) (raw : Str) : ParseState :=
  let line := pyStrip raw
  if line = [] then st
  else if line.head? = some '#' then st
  else if line.head? = some '[' ∧ line.getLast? = some ']' then
    let parent := (line.drop 1).dropLast
    { m := setKey st.m parent [], cur := some parent }
  else
    match st.cur with
    | some parent =>
      if parent ≠ [] ∧ ',' ∈ line then
        let parts := splitFirstComma line
        { st with m := appendVal st.m parent ⟨pyStrip parts.1, pyStrip parts.2⟩ }
      else st
    | none => st

/-- `parse_consolidation_proposal` on a list of lines: fold the line
parser, then drop groups that ended up with no children. -/
def parse_proposal_lines (lines : List Str) : List (Str × List ChildEntry) :=
  ((lines.foldl parse_line ⟨[], none⟩).m).filter (fun p => p.2 ≠ [])

/-- `parse_consolidation_proposal` on the raw file text. -/
def parse_consolidation_proposal (text : Str) : List (Str × List ChildEntry) :=
  parse_proposal_lines (splitNl text)

/-- `determine_parent_food_group`: the most common food group among the
children (ties resolved in favour of the first-encountered group, as
`Counter.most_common` does with a stable sort). -/
def determine_parent_food_group (children : List ChildEntry) : Str :=
  let counts := children.foldl (fun m c => addCount m c.food_group) []
  (counts.foldl (fun best q => if best.2 < q.2 then q else best) ([], 0)).1

/-- The `parent_child_relationships` list built by
`generate_hierarchy_files`: one `(parent_name, child_name)` edge per
non-self child of each group, in file order. -/
def parent_child_relationships (consolidations : List (Str × List ChildEntry)) :
    List (Str × Str) :=
  consolidations.flatMap
    (fun g => (g.2.filter (fun c => c.name ≠ g.1)).map (fun c => (g.1, c.name)))

/-- The `all_ingredients` registry of `generate_hierarchy_files` before
depth resolution: parents (with their resolved food group), non-self
children, then standalone original ingredients; first registration of a
name wins. -/
def all_ingredients_registry (consolidations : List (Str × List ChildEntry))
    (original_df : List (Str × Str)) : List (Str × Str) :=
  let afterGroups :=
    consolidations.foldl
      (fun acc g =>
        let acc1 :=
          if (getVal acc g.1).isSome then acc
          else acc ++ [(g.1, determine_parent_food_group g.2)]
        g.2.foldl
          (fun acc2 c =>
            if c.name = g.1 then acc2
            else if (getVal acc2 c.name).isSome then acc2
            else acc2 ++ [(c.name, c.food_group)])
          acc1)
      []
  original_df.foldl
    (fun acc row =>
      if (getVal acc row.1).isSome then acc else acc ++ [(row.1, row.2)])
    afterGroups

/-- `child_to_parents`: reverse adjacency over the retained edges. -/
def child_to_parents (rels : List (Str × Str)) (name : Str) : List Str :=
  (rels.filter (fun r => r.2 = name)).map (·.1)

/-- Evaluating an optional function on every list element, all of which
must succeed (the per-parent recursion of `calculate_depth`). -/
def optionMapM {α β : Type} (f : α → Option β) : List α → Option (List β)
  | [] => some []
  | x :: xs =>
    match f x, optionMapM f xs with
    | some y, some ys => some (y :: ys)
    | _, _ => none

/-- `calculate_depth`, fuel-indexed: the Python function recurses with a
per-path visited set; `none` means the fuel ran out, and the termination
theorem below shows enough fuel always exists, so the recursion the code
performs is total. -/
def calculate_depth (rels : List (Str × Str)) :
    Nat → List Str → Str → Option Nat
  | 0, _, _ => none
  | fuel + 1, visited, ingredient_name =>
    if ingredient_name ∈ visited then some 0
    else
      let visited' := ingredient_name :: visited
      let parents := child_to_parents rels ingredient_name
      if parents = [] then some 0
      else
        match optionMapM (calculate_depth rels fuel visited') parents with
        | none => none
        | some ds => some (ds.foldl max 0 + 1)

/-- All names occurring in the edge list (an upper bound for the visited
set growth in `calculate_depth`). -/
def relNames (rels : List (Str × Str)) : List Str :=
  (rels.flatMap (fun r => [r.1, r.2])).dedup

/-- The hierarchy produced by `generate_hierarchy_files`: every registered
ingredient with its food group and resolved depth, plus the edge list.
The fuel passed suffices by the termination theorem, so this equals the
code's unbounded recursion. -/
def generate_hierarchy (consolidations : List (Str × List ChildEntry))
    (original_df : List (Str × Str)) :
    List (Str × Str × Nat) × List (Str × Str) :=
  let rels := parent_child_relationships consolidations
  let registry := all_ingredients_registry consolidations original_df
  (registry.map
    (fun p =>
      (p.1, p.2, (calculate_depth rels ((relNames rels).length + 1) [] p.1).getD 0)),
    rels)

/- ----------------------------------------------------------------
   Helper lemmas about the dict / counter model
   ---------------------------------------------------------------- -/

theorem getCount_addCount (m : List (Str × Nat)) (u w : Str) :
    getCount (addCount m u) w = getCount m w + if u = w then 1 else 0 := by
  induction m with
  | nil =>
    by_cases h : u = w
    · subst h
      simp [addCount, getCount, getVal]
    · simp [addCount, getCount, getVal, h, fun h' : u = w => h h']
  | cons p rest ih =>
    obtain ⟨k, n⟩ := p
    by_cases hk : k = u
    · subst hk
      by_cases hw : k = w
      · subst hw
        simp [addCount, getCount, getVal]
      · simp [addCount, getCount, getVal, hw, fun h : k = w => hw h]
    · by_cases hw : k = w
      · subst hw
        simp [addCount, getCount, getVal, hk]
        exact fun h : u = k => hk h.symm
      · simp only [addCount, if_neg hk, getCount, getVal, if_neg hw]
        exact ih

theorem getCount_foldl_addCount (l : List Str) (m : List (Str × Nat)) (w : Str) :
    getCount (l.foldl (fun c ing => addCount c ing) m) w = getCount m w + l.count w := by
  induction l generalizing m with
  | nil => simp
  | cons x xs ih =>
    simp only [List.foldl_cons, ih, getCount_addCount, List.count_cons]
    by_cases h : x = w
    · subst h
      simp
      omega
    · simp only [if_neg h, beq_iff_eq, if_neg (fun h' : w = x => h h'.symm)]
      omega


theorem word_freq_step_fst (words : List Str) (name : Str)
    (acc : List (Str × Nat) × List (Str × List Str)) :
    (words.foldl
      (fun acc2 word => (addCount acc2.1 word, addPosting acc2.2 word name)) acc).1 =
      words.foldl (fun m w => addCount m w) acc.1 := by
  induction words generalizing acc with
  | nil => rfl
  | cons x xs ih => simp only [List.foldl_cons, ih]

theorem getCount_find_word_frequencies (ingredients_df : List (Str × Str))
    (acc : List (Str × Nat) × List (Str × List Str)) (w : Str) :
    getCount ((ingredients_df.foldl
      (fun acc row =>
        (extract_meaningful_words row.1).foldl
          (fun acc2 word => (addCount acc2.1 word, addPosting acc2.2 word row.1)) acc)
      acc).1) w =
      getCount acc.1 w +
        (ingredients_df.map (fun r => (extract_meaningful_words r.1).count w)).sum := by
  induction ingredients_df generalizing acc with
  | nil => simp
  | cons r rest ih =>
    simp only [List.foldl_cons, List.map_cons, List.sum_cons, ih,
      word_freq_step_fst, getCount_foldl_addCount]
    omega

/-- Single-ingredient collection whose one name repeats a word, used to
separate ingredient counting from token counting. -/
def dfRepeatedWord : List (Str × Str) := [("CHEESE CHEESE".data, "Dairy".data)]

/-- C5: the claim says the word-index count of a word equals the number of
distinct ingredients containing it, a word occurring twice in one name
contributing 1.  On `{"CHEESE CHEESE": Dairy}` the code counts every token
occurrence: the count of CHEESE is 2 although only 1 ingredient contains
it, so the claim is false. -/
theorem c5_counterexample :
    ¬ (getCount (find_word_frequencies dfRepeatedWord).1 "CHEESE".data =
        (dfRepeatedWord.filter
          (fun r => decide ("CHEESE".data ∈ extract_meaningful_words r.1))).length) := by
  decide

/-- C5 (amended): the global occurrence count of a word produced by the
word-index pass equals the total number of token occurrences of that word
across all ingredient names; a word appearing twice within one ingredient
name contributes 2 to that word's count. -/
theorem c5_theorem (ingredients_df : List (Str × Str)) (w : Str) :
    getCount (find_word_frequencies ingredients_df).1 w =
      (ingredients_df.map (fun r => (extract_meaningful_words r.1).count w)).sum := by
  have h := getCount_find_word_frequencies ingredients_df ([], []) w
  simpa [find_word_frequencies, getCount, getVal] using h

/-- The four-ingredient collection of the claim: three cheeses and one
juice. -/
def dfCheese : List (Str × Str) :=
  [("CHEDDAR CHEESE".data, "Dairy".data), ("SWISS CHEESE".data, "Dairy".data),
   ("COTTAGE CHEESE".data, "Dairy".data), ("ORANGE JUICE".data, "Fruit".data)]

/-- C1: the claim says that on the four-ingredient cheese collection the
word CHEESE scores at least 30, is not a processing term, and yields a
group of the three cheeses.  On the code all three parts fail: CHEESE is
classified as a processing term (its frequency 3 exceeds 0.15 times the 6
distinct words, and its 3 base words exceed 0.3 times 3), its grouping
score is 0 (3 postings exceed 10 percent of 4 ingredients), and the
assignment produces no group at all. -/
theorem c1_counterexample :
    ¬ (Frac.le MIN_SCORE_THRESHOLD
        (calculate_grouping_potential "CHEESE".data
          ((getVal (find_word_frequencies dfCheese).2 "CHEESE".data).getD [])
          (dfCheese.map (fun r => r.1))) ∧
       "CHEESE".data ∉ identify_processing_terms_dynamically
          (find_word_frequencies dfCheese).1 (find_word_frequencies dfCheese).2 ∧
       (getVal (find_consolidation_groups dfCheese) "CHEESE".data).isSome) := by
  decide

/-- C1 (amended): on the four-ingredient cheese collection, CHEESE is
classified as a processing term, its grouping potential is 0 (its 3
postings exceed the 10 percent cap of the 4-ingredient total, below the
30-point threshold), and the assignment pass produces no consolidation
group at all, so in particular no CHEESE group. -/
theorem c1_theorem :
    "CHEESE".data ∈ identify_processing_terms_dynamically
        (find_word_frequencies dfCheese).1 (find_word_frequencies dfCheese).2 ∧
    calculate_grouping_potential "CHEESE".data
        ((getVal (find_word_frequencies dfCheese).2 "CHEESE".data).getD [])
        (dfCheese.map (fun r => r.1)) = Frac.ofInt 0 ∧
    find_consolidation_groups dfCheese = [] := by
  decide

theorem length_filter_visited_le (l : List Str) (n : Str) (v : List Str) :
    (l.filter (fun x => decide (x ∉ n :: v))).length ≤
      (l.filter (fun x => decide (x ∉ v))).length :=
  List.Sublist.length_le
    (List.monotone_filter_right l (fun a ha => by
      simp only [decide_eq_true_eq, List.mem_cons] at ha ⊢
      exact fun hv => ha (Or.inr hv)))

theorem length_filter_visited_lt {l : List Str} {n : Str} {v : List Str}
    (hmem : n ∈ l) (hnv : n ∉ v) :
    (l.filter (fun x => decide (x ∉ n :: v))).length <
      (l.filter (fun x => decide (x ∉ v))).length := by
  induction l with
  | nil => cases hmem
  | cons x xs ih =>
    by_cases hx : x = n
    · subst hx
      rw [List.filter_cons_of_neg (by simp), List.filter_cons_of_pos (by simpa using hnv)]
      have := length_filter_visited_le xs x v
      simp only [List.length_cons]
      omega
    · have hmem' : n ∈ xs := by
        cases hmem with
        | head => exact absurd rfl hx
        | tail _ h => exact h
      by_cases hv : x ∈ v
      · rw [List.filter_cons_of_neg (by simp [hv]), List.filter_cons_of_neg (by simpa using hv)]
        exact ih hmem'
      · have hxc : x ∉ n :: v := by
          simp only [List.mem_cons]
          rintro (h | h)
          · exact hx h
          · exact hv h
        rw [List.filter_cons_of_pos (by simpa using hxc),
          List.filter_cons_of_pos (by simpa using hv)]
        simp only [List.length_cons]
        exact Nat.succ_lt_succ (ih hmem')

theorem optionMapM_isSome {α β : Type} (f : α → Option β) (l : List α)
    (h : ∀ x ∈ l, (f x).isSome) : (optionMapM f l).isSome := by
  induction l with
  | nil => simp [optionMapM]
  | cons x xs ih =>
    obtain ⟨y, hy⟩ := Option.isSome_iff_exists.mp (h x (List.mem_cons_self x xs))
    obtain ⟨ys, hys⟩ := Option.isSome_iff_exists.mp
      (ih (fun z hz => h z (List.mem_cons_of_mem x hz)))
    simp [optionMapM, hy, hys]

theorem mem_relNames_of_parents_ne_nil {rels : List (Str × Str)} {name : Str}
    (h : child_to_parents rels name ≠ []) : name ∈ relNames rels := by
  have : (rels.filter (fun r => decide (r.2 = name))) ≠ [] := by
    intro hcon
    exact h (by simp [child_to_parents, hcon])
  obtain ⟨e, he⟩ := List.exists_mem_of_ne_nil _ this
  have hmem : e ∈ rels := (List.mem_filter.mp he).1
  have heq : e.2 = name := by
    have := (List.mem_filter.mp he).2
    simpa using this
  subst heq
  apply List.mem_dedup.mpr
  exact List.mem_flatMap.mpr ⟨e, hmem, by simp⟩

/-- C7: for every finite edge set, every starting node and every visited
set, the recursive depth computation completes whenever the fuel exceeds
the number of distinct graph names not yet visited - the visited-set
guard bounds every traversal path, so the recursion the Python code
performs (which has no fuel) always terminates. -/
theorem c7_theorem (rels : List (Str × Str)) (fuel : Nat) (visited : List Str)
    (name : Str)
    (h : ((relNames rels).filter (fun x => decide (x ∉ visited))).length < fuel) :
    (calculate_depth rels fuel visited name).isSome := by
  induction fuel generalizing visited name with
  | zero => omega
  | succ f ih =>
    rw [calculate_depth]
    by_cases hv : name ∈ visited
    · simp [hv]
    · simp only [if_neg hv]
      by_cases hp : child_to_parents rels name = []
      · simp [hp]
      · simp only [hp, if_neg hp]
        have hrec : ∀ p ∈ child_to_parents rels name,
            (calculate_depth rels f (name :: visited) p).isSome := by
          intro p _
          apply ih
          have hlt := length_filter_visited_lt
            (mem_relNames_of_parents_ne_nil hp) hv
          omega
        obtain ⟨ds, hds⟩ := Option.isSome_iff_exists.mp
          (optionMapM_isSome _ _ hrec)
        simp [hds]

/-- C7 witness: the two-node cycle instantiates the termination theorem. -/
theorem c7_witness :
    ((relNames [("A".data, "B".data), ("B".data, "A".data)]).filter
      (fun x => decide (x ∉ ([] : List Str)))).length < 3 ∧
    (calculate_depth [("A".data, "B".data), ("B".data, "A".data)] 3 [] "A".data).isSome :=
  ⟨by decide, c7_theorem _ 3 [] _ (by decide)⟩

theorem optionMapM_const {α β : Type} (f : α → Option β) (l : List α) (b : α) (v : β)
    (hall : ∀ x ∈ l, x = b) (hfb : f b = some v) :
    optionMapM f l = some (l.map (fun _ => v)) := by
  induction l with
  | nil => simp [optionMapM]
  | cons x xs ih =>
    have hx : x = b := hall x (List.mem_cons_self x xs)
    subst hx
    rw [optionMapM, hfb, ih (fun z hz => hall z (List.mem_cons_of_mem x hz))]
    simp

theorem foldl_max_all_eq (l : List Nat) (v : Nat) (hall : ∀ x ∈ l, x = v)
    (hne : l ≠ []) : ∀ a, l.foldl max a = max a v := by
  induction l with
  | nil => exact absurd rfl hne
  | cons x xs ih =>
    intro a
    have hx : x = v := hall x (List.mem_cons_self x xs)
    subst hx
    by_cases hxs : xs = []
    · subst hxs
      simp
    · rw [List.foldl_cons, ih (fun z hz => hall z (List.mem_cons_of_mem x hz)) hxs (max a x),
        Nat.max_assoc, Nat.max_self]

theorem child_to_parents_all {rels : List (Str × Str)} {X Y : Str}
    (honly : ∀ e ∈ rels, e.2 = X → e.1 = Y) :
    ∀ p ∈ child_to_parents rels X, p = Y := by
  intro p hp
  obtain ⟨e, he, hpe⟩ := List.mem_map.mp hp
  have hmem : e ∈ rels := (List.mem_filter.mp he).1
  have heq : e.2 = X := by simpa using (List.mem_filter.mp he).2
  rw [← hpe]
  exact honly e hmem heq

theorem mem_child_to_parents {rels : List (Str × Str)} {X Y : Str}
    (h : (Y, X) ∈ rels) : Y ∈ child_to_parents rels X :=
  List.mem_map.mpr ⟨(Y, X), List.mem_filter.mpr ⟨h, by simp⟩, rfl⟩

theorem calc_depth_single_parent_step {rels : List (Str × Str)} {X Y : Str}
    {v : List Str} {fuel d : Nat}
    (hX : X ∉ v) (hmem : (Y, X) ∈ rels)
    (honly : ∀ e ∈ rels, e.2 = X → e.1 = Y)
    (hY : calculate_depth rels fuel (X :: v) Y = some d) :
    calculate_depth rels (fuel + 1) v X = some (d + 1) := by
  rw [calculate_depth]
  have hne : child_to_parents rels X ≠ [] := by
    intro hcon
    have hm := mem_child_to_parents hmem
    rw [hcon] at hm
    cases hm
  have hmm : optionMapM (calculate_depth rels fuel (X :: v))
      (child_to_parents rels X) =
      some ((child_to_parents rels X).map (fun _ => d)) :=
    optionMapM_const _ _ Y d (child_to_parents_all honly) hY
  have hfold : ∀ a, ((child_to_parents rels X).map (fun _ => d)).foldl max a = max a d := by
    apply foldl_max_all_eq
    · intro x hx
      obtain ⟨_, _, h⟩ := List.mem_map.mp hx
      exact h.symm
    · simpa using hne
  simp only [if_neg hX, if_neg hne, hmm, hfold 0, Nat.zero_max]

/-- The two-node-cycle edge list used by claims C6 and C7. -/
def relsCycle : List (Str × Str) := [("A".data, "B".data), ("B".data, "A".data)]

/-- C6: the claim says the A-B-A cycle terminates and resolves at least
one of A and B to depth 0.  The computation does terminate, but each
traversal short-circuits only at the revisited node and adds 1 per edge
on the way back, so both A and B receive depth 2 and neither is 0. -/
theorem c6_counterexample :
    ¬ ((calculate_depth relsCycle 3 [] "A".data).isSome ∧
       (calculate_depth relsCycle 3 [] "B".data).isSome ∧
       (calculate_depth relsCycle 3 [] "A".data = some 0 ∨
        calculate_depth relsCycle 3 [] "B".data = some 0)) := by
  decide

/-- C6 (amended): whenever the edge set contains the two-node cycle
A-B-A and no other edges involve A or B, depth computation completes
without raising and assigns depth 2 to each of A and B (the revisited
node contributes 0 to its path and each of the two edges adds 1);
neither cycle member resolves to depth 0. -/
theorem c6_theorem (rels : List (Str × Str)) (A B : Str) (fuel : Nat)
    (hAB : A ≠ B)
    (hParentOfB : (A, B) ∈ rels) (hParentOfA : (B, A) ∈ rels)
    (honlyA : ∀ e ∈ rels, e.2 = A → e.1 = B)
    (honlyB : ∀ e ∈ rels, e.2 = B → e.1 = A) :
    calculate_depth rels (fuel + 3) [] A = some 2 ∧
    calculate_depth rels (fuel + 3) [] B = some 2 := by
  have hA0 : ∀ v : List Str, A ∈ v → calculate_depth rels (fuel + 1) v A = some 0 := by
    intro v hv
    rw [calculate_depth, if_pos hv]
  have hB0 : ∀ v : List Str, B ∈ v → calculate_depth rels (fuel + 1) v B = some 0 := by
    intro v hv
    rw [calculate_depth, if_pos hv]
  constructor
  · have h1 : calculate_depth rels (fuel + 2) [A] B = some 1 := by
      have := calc_depth_single_parent_step (v := [A])
        (by simp only [List.mem_singleton]; exact fun h => hAB h.symm) hParentOfB honlyB
        (hA0 [B, A] (by simp))
      simpa using this
    have := calc_depth_single_parent_step (v := []) (by simp) hParentOfA honlyA h1
    simpa using this
  · have h1 : calculate_depth rels (fuel + 2) [B] A = some 1 := by
      have := calc_depth_single_parent_step (v := [B])
        (by simp [hAB]) hParentOfA honlyA
        (hB0 [A, B] (by simp))
      simpa using this
    have := calc_depth_single_parent_step (v := []) (by simp) hParentOfB honlyB h1
    simpa using this

/-- C6 witness: the amended theorem applied to the concrete two-node
cycle. -/
theorem c6_witness :
    calculate_depth relsCycle 3 [] "A".data = some 2 ∧
    calculate_depth relsCycle 3 [] "B".data = some 2 :=
  c6_theorem relsCycle "A".data "B".data 0 (by decide)
    (by decide) (by decide) (by decide) (by decide)

theorem addPosting_nodup (m : List (Str × List Str)) (w name : Str)
    (h : ∀ p ∈ m, p.2.Nodup) : ∀ p ∈ addPosting m w name, p.2.Nodup := by
  induction m with
  | nil =>
    intro p hp
    simp only [addPosting, List.mem_singleton] at hp
    subst hp
    simp
  | cons q rest ih =>
    obtain ⟨k, v⟩ := q
    intro p hp
    by_cases hk : k = w
    · simp only [addPosting, if_pos hk, List.mem_cons] at hp
      rcases hp with hp | hp
      · subst hp
        by_cases hn : name ∈ v
        · simpa [hn] using h (k, v) (List.mem_cons_self _ _)
        · simp only [if_neg hn]
          have hv : v.Nodup := h (k, v) (List.mem_cons_self _ _)
          simp [List.nodup_append, hv, hn]
      · exact h p (List.mem_cons_of_mem _ hp)
    · simp only [addPosting, if_neg hk, List.mem_cons] at hp
      rcases hp with hp | hp
      · subst hp
        exact h (k, v) (List.mem_cons_self _ _)
      · exact ih (fun q hq => h q (List.mem_cons_of_mem _ hq)) p hp

theorem word_freq_step_snd_nodup (words : List Str) (name : Str)
    (acc : List (Str × Nat) × List (Str × List Str))
    (h : ∀ p ∈ acc.2, p.2.Nodup) :
    ∀ p ∈ (words.foldl
      (fun acc2 word => (addCount acc2.1 word, addPosting acc2.2 word name)) acc).2,
      p.2.Nodup := by
  induction words generalizing acc with
  | nil => exact h
  | cons x xs ih =>
    simp only [List.foldl_cons]
    exact ih _ (addPosting_nodup _ _ _ h)

theorem find_word_frequencies_nodup (ingredients_df : List (Str × Str)) :
    ∀ p ∈ (find_word_frequencies ingredients_df).2, p.2.Nodup := by
  rw [find_word_frequencies]
  generalize hacc : (([], []) : List (Str × Nat) × List (Str × List Str)) = acc
  have hbase : ∀ p ∈ acc.2, p.2.Nodup := by
    subst hacc
    simp
  clear hacc
  induction ingredients_df generalizing acc with
  | nil => exact hbase
  | cons r rest ih =>
    simp only [List.foldl_cons]
    exact ih _ (word_freq_step_snd_nodup _ _ _ hbase)

theorem getVal_mem {α : Type} {m : List (Str × α)} {w : Str} {v : α}
    (h : getVal m w = some v) : (w, v) ∈ m := by
  induction m with
  | nil => simp [getVal] at h
  | cons q rest ih =>
    obtain ⟨k, u⟩ := q
    by_cases hk : k = w
    · subst hk
      rw [getVal, if_pos rfl] at h
      cases h
      exact List.mem_cons_self _ _
    · simp only [getVal, if_neg hk] at h
      exact List.mem_cons_of_mem _ (ih h)

theorem posting_nodup (ingredients_df : List (Str × Str)) (w : Str) :
    ((getVal (find_word_frequencies ingredients_df).2 w).getD []).Nodup := by
  cases hv : getVal (find_word_frequencies ingredients_df).2 w with
  | none => simp
  | some v =>
    simpa using find_word_frequencies_nodup ingredients_df (w, v) (getVal_mem hv)

/-- Whether a produced consolidation group lists this ingredient as a
child. -/
def group_has_child (ing : Str) (g : Str × List ChildEntry) : Bool :=
  decide (ing ∈ g.2.map (fun c => c.name))

theorem nodup_count_one {l : List Str} {a : Str} (d : l.Nodup) (h : a ∈ l) :
    l.count a = 1 := by
  induction l with
  | nil => cases h
  | cons x xs ih =>
    rcases List.mem_cons.mp h with hx | hx
    · subst hx
      have hnot : a ∉ xs := (List.nodup_cons.mp d).1
      rw [List.count_cons_self, List.count_eq_zero_of_not_mem hnot]
    · have hne : a ≠ x := by
        rintro rfl
        exact (List.nodup_cons.mp d).1 hx
      rw [List.count_cons_of_ne hne, ih (List.nodup_cons.mp d).2 hx]

theorem assign_word_invariant (ingredients_df : List (Str × Str)) (ing : Str)
    (st : List (Str × List ChildEntry) × List (Str × Nat)) (p : Str × Frac)
    (h1 : st.1.countP (group_has_child ing) ≤ getCount st.2 ing)
    (h2 : getCount st.2 ing ≤ MAX_PARENTS_PER_INGREDIENT) :
    (assign_word ingredients_df (find_word_frequencies ingredients_df).2 st p).1.countP
        (group_has_child ing) ≤
      getCount (assign_word ingredients_df (find_word_frequencies ingredients_df).2 st p).2 ing ∧
    getCount (assign_word ingredients_df (find_word_frequencies ingredients_df).2 st p).2 ing ≤
      MAX_PARENTS_PER_INGREDIENT := by
  rw [assign_word]
  set w2i := (find_word_frequencies ingredients_df).2 with hw2i
  set avail := ((getVal w2i p.1).getD []).filter
    (fun i => decide (getCount st.2 i < MAX_PARENTS_PER_INGREDIENT)) with havail
  by_cases hlen : 2 ≤ avail.length
  · simp only [if_pos hlen]
    have havailnodup : avail.Nodup := by
      rw [havail, hw2i]
      exact List.Nodup.filter _ (posting_nodup ingredients_df p.1)
    have hnames : (avail.map
        (fun i => (⟨i, lookup_food_group ingredients_df i⟩ : ChildEntry))).map
        (fun c => c.name) = avail := by
      rw [List.map_map]
      exact List.map_id _
    have hcount : getCount (avail.foldl (fun c i => addCount c i) st.2) ing =
        getCount st.2 ing + avail.count ing := getCount_foldl_addCount _ _ _
    by_cases hmem : ing ∈ avail
    · have hlt : getCount st.2 ing < MAX_PARENTS_PER_INGREDIENT := by
        have := (List.mem_filter.mp (havail ▸ hmem)).2
        simpa using this
      have hone : avail.count ing = 1 := nodup_count_one havailnodup hmem
      have hpred : group_has_child ing
          (p.1, avail.map (fun i => (⟨i, lookup_food_group ingredients_df i⟩ : ChildEntry))) =
          true := by
        simp only [group_has_child, hnames, decide_eq_true_eq]
        exact hmem
      constructor
      · simp only [List.countP_append, hcount, hone]
        have : List.countP (group_has_child ing)
            [(p.1, avail.map (fun i => (⟨i, lookup_food_group ingredients_df i⟩ : ChildEntry)))] = 1 := by
          simp [List.countP_cons, hpred]
        rw [this]
        omega
      · simp only [hcount, hone]
        omega
    · have hzero : avail.count ing = 0 := List.count_eq_zero_of_not_mem hmem
      have hpred : group_has_child ing
          (p.1, avail.map (fun i => (⟨i, lookup_food_group ingredients_df i⟩ : ChildEntry))) =
          false := by
        simp only [group_has_child, hnames, decide_eq_false_iff_not]
        exact hmem
      constructor
      · simp only [List.countP_append, hcount, hzero]
        have : List.countP (group_has_child ing)
            [(p.1, avail.map (fun i => (⟨i, lookup_food_group ingredients_df i⟩ : ChildEntry)))] = 0 := by
          simp [List.countP_cons, hpred]
        rw [this]
        omega
      · simp only [hcount, hzero]
        omega
  · simp only [if_neg hlen]
    exact ⟨h1, h2⟩

theorem assign_fold_invariant (ingredients_df : List (Str × Str)) (ing : Str)
    (ws : List (Str × Frac)) (st : List (Str × List ChildEntry) × List (Str × Nat))
    (h1 : st.1.countP (group_has_child ing) ≤ getCount st.2 ing)
    (h2 : getCount st.2 ing ≤ MAX_PARENTS_PER_INGREDIENT) :
    (ws.foldl (assign_word ingredients_df (find_word_frequencies ingredients_df).2) st).1.countP
        (group_has_child ing) ≤
      getCount (ws.foldl (assign_word ingredients_df
        (find_word_frequencies ingredients_df).2) st).2 ing ∧
    getCount (ws.foldl (assign_word ingredients_df
        (find_word_frequencies ingredients_df).2) st).2 ing ≤ MAX_PARENTS_PER_INGREDIENT := by
  induction ws generalizing st with
  | nil => exact ⟨h1, h2⟩
  | cons x xs ih =>
    simp only [List.foldl_cons]
    obtain ⟨g1, g2⟩ := assign_word_invariant ingredients_df ing st x h1 h2
    exact ih _ g1 g2

/-- C3: at every point of the greedy assignment loop (after processing any
prefix of the sorted candidate words) the per-ingredient parent counter is
at most 3, and in the final output no ingredient appears as a child in
more than 3 groups, for every input ingredient collection. -/
theorem c3_theorem (ingredients_df : List (Str × Str)) (ing : Str) (n : Nat) :
    getCount (((sorted_candidate_words ingredients_df).take n).foldl
        (assign_word ingredients_df (find_word_frequencies ingredients_df).2)
        ([], [])).2 ing ≤ MAX_PARENTS_PER_INGREDIENT ∧
    (find_consolidation_groups ingredients_df).countP (group_has_child ing) ≤
      MAX_PARENTS_PER_INGREDIENT := by
  constructor
  · exact (assign_fold_invariant ingredients_df ing _ ([], [])
      (by simp [getCount, getVal]) (by simp [getCount, getVal, MAX_PARENTS_PER_INGREDIENT])).2
  · rw [find_consolidation_groups]
    have := assign_fold_invariant ingredients_df ing
      (sorted_candidate_words ingredients_df) ([], [])
      (by simp [getCount, getVal]) (by simp [getCount, getVal, MAX_PARENTS_PER_INGREDIENT])
    exact le_trans this.1 this.2

/-- Twenty ingredients producing two tied candidate words, ZULU
encountered before ABLE: each appears in 2 of the 20 names with the same
structure, so both score exactly 60; the 16 filler names keep every word
below the processing-term and percentage cutoffs. -/
def dfTie : List (Str × Str) :=
  [("ZULU AXA".data, "G1".data), ("ZULU AXB".data, "G1".data),
   ("ABLE BXA".data, "G1".data), ("ABLE BXB".data, "G1".data),
   ("FAA".data, "G1".data), ("FAB".data, "G1".data), ("FAC".data, "G1".data),
   ("FAD".data, "G1".data), ("FAE".data, "G1".data), ("FAF".data, "G1".data),
   ("FAG".data, "G1".data), ("FAH".data, "G1".data), ("FAI".data, "G1".data),
   ("FAJ".data, "G1".data), ("FAK".data, "G1".data), ("FAL".data, "G1".data),
   ("FAM".data, "G1".data), ("FAN".data, "G1".data), ("FAO".data, "G1".data),
   ("FAP".data, "G1".data)]

/-- The tied score of ZULU and ABLE on `dfTie`: the exact value 60
(240/4). -/
def tieScore : Frac := ⟨240, ⟨4, by decide⟩⟩

/-- C8: the claim says equal-score candidate words are processed in
alphabetical order.  On `dfTie` the words ZULU and ABLE carry the same
score 60, ABLE precedes ZULU alphabetically, yet the loop processes ZULU
first - ties keep the candidate map's first-encounter order, not the
alphabetical one. -/
theorem c8_counterexample :
    sorted_candidate_words dfTie = [("ZULU".data, tieScore), ("ABLE".data, tieScore)] ∧
    strLe "ABLE".data "ZULU".data = true ∧ "ABLE".data ≠ "ZULU".data := by
  refine ⟨by decide, by decide, by decide⟩

/-- C8 (amended): the group assigner processes candidate words in
descending score order (the processed sequence is pairwise
non-increasing and a permutation of the candidate map), and whenever two
candidate words have scores ordered `scoreGe a b` with `a` before `b` in
the candidate map - in particular whenever they are tied - they are
processed with `a` still before `b`: ties keep the candidate map's
first-encounter order. -/
theorem c8_theorem (ingredients_df : List (Str × Str)) :
    List.Pairwise scoreGe (sorted_candidate_words ingredients_df) ∧
    (sorted_candidate_words ingredients_df).Perm (candidate_word_scores ingredients_df) ∧
    (∀ a b : Str × Frac, scoreGe a b →
      [a, b].Sublist (candidate_word_scores ingredients_df) →
      [a, b].Sublist (sorted_candidate_words ingredients_df)) := by
  refine ⟨List.sorted_insertionSort scoreGe _, List.perm_insertionSort scoreGe _, ?_⟩
  intro a b hab hsub
  exact List.pair_sublist_insertionSort hab hsub

/-- C8 witness: on `dfTie` the tied pair (ZULU before ABLE in the
candidate map) stays in that order in the processed sequence. -/
theorem c8_witness :
    [("ZULU".data, tieScore), ("ABLE".data, tieScore)].Sublist
      (sorted_candidate_words dfTie) :=
  (c8_theorem dfTie).2.2 _ _ (by decide) (by decide)

theorem getVal_append_left {α : Type} {m : List (Str × α)} (e : List (Str × α))
    {k : Str} {v : α} (h : getVal m k = some v) : getVal (m ++ e) k = some v := by
  induction m with
  | nil => simp [getVal] at h
  | cons q rest ih =>
    obtain ⟨k0, v0⟩ := q
    by_cases hk : k0 = k
    · subst hk
      rw [getVal, if_pos rfl] at h
      rw [List.cons_append, getVal, if_pos rfl]
      exact h
    · rw [getVal, if_neg hk] at h
      rw [List.cons_append, getVal, if_neg hk]
      exact ih h

theorem foldl_extends {α β : Type} (f : List α → β → List α)
    (hf : ∀ m x, ∃ e, f m x = m ++ e) (l : List β) (m : List α) :
    ∃ e, l.foldl f m = m ++ e := by
  induction l generalizing m with
  | nil => exact ⟨[], by simp⟩
  | cons x xs ih =>
    obtain ⟨e1, he1⟩ := hf m x
    obtain ⟨e2, he2⟩ := ih (m ++ e1)
    exact ⟨e1 ++ e2, by simp [he1, he2]⟩

theorem getVal_isSome_foldl {α β : Type} (f : List (Str × α) → β → List (Str × α))
    (hf : ∀ m x, ∃ e, f m x = m ++ e) (l : List β) (m : List (Str × α)) (k : Str)
    (h : (getVal m k).isSome) : (getVal (l.foldl f m) k).isSome := by
  obtain ⟨e, he⟩ := foldl_extends f hf l m
  obtain ⟨v, hv⟩ := Option.isSome_iff_exists.mp h
  rw [he, getVal_append_left e hv]
  rfl

theorem registry_group_step_extends (consolidations_entry : Str × List ChildEntry)
    (acc : List (Str × Str)) :
    ∃ e, (consolidations_entry.2.foldl
      (fun acc2 c =>
        if c.name = consolidations_entry.1 then acc2
        else if (getVal acc2 c.name).isSome then acc2
        else acc2 ++ [(c.name, c.food_group)])
      (if (getVal acc consolidations_entry.1).isSome then acc
       else acc ++ [(consolidations_entry.1,
         determine_parent_food_group consolidations_entry.2)])) = acc ++ e := by
  have hchild : ∀ (m : List (Str × Str)) (c : ChildEntry), ∃ e,
      (if c.name = consolidations_entry.1 then m
       else if (getVal m c.name).isSome then m
       else m ++ [(c.name, c.food_group)]) = m ++ e := by
    intro m c
    by_cases h1 : c.name = consolidations_entry.1
    · exact ⟨[], by simp [h1]⟩
    · by_cases h2 : (getVal m c.name).isSome
      · exact ⟨[], by simp [h1, h2]⟩
      · exact ⟨[(c.name, c.food_group)], by simp [h1, h2]⟩
  by_cases hp : (getVal acc consolidations_entry.1).isSome
  · rw [if_pos hp]
    exact foldl_extends _ hchild _ _
  · rw [if_neg hp]
    obtain ⟨e, he⟩ := foldl_extends _ hchild consolidations_entry.2
      (acc ++ [(consolidations_entry.1, determine_parent_food_group consolidations_entry.2)])
    exact ⟨[(consolidations_entry.1, determine_parent_food_group consolidations_entry.2)] ++ e,
      by rw [he, List.append_assoc]⟩

theorem getVal_isSome_mem_keys {α : Type} {m : List (Str × α)} {k : Str}
    (h : (getVal m k).isSome) : k ∈ m.map (fun q => q.1) := by
  induction m with
  | nil => simp [getVal] at h
  | cons q rest ih =>
    obtain ⟨k0, v0⟩ := q
    by_cases hk : k0 = k
    · subst hk
      exact List.mem_cons_self _ _
    · rw [getVal, if_neg hk] at h
      exact List.mem_cons_of_mem _ (ih h)

theorem getVal_append_none {α : Type} {m : List (Str × α)} (e : List (Str × α))
    {k : Str} (h : getVal m k = none) : getVal (m ++ e) k = getVal e k := by
  induction m with
  | nil => simp
  | cons q rest ih =>
    obtain ⟨k0, v0⟩ := q
    by_cases hk : k0 = k
    · subst hk
      rw [getVal, if_pos rfl] at h
      cases h
    · rw [getVal, if_neg hk] at h
      rw [List.cons_append, getVal, if_neg hk]
      exact ih h

theorem registry_child_step_extends (pname : Str) (m : List (Str × Str)) (c : ChildEntry) :
    ∃ e, (if c.name = pname then m
      else if (getVal m c.name).isSome then m
      else m ++ [(c.name, c.food_group)]) = m ++ e := by
  by_cases h1 : c.name = pname
  · exact ⟨[], by simp [h1]⟩
  · by_cases h2 : (getVal m c.name).isSome
    · exact ⟨[], by simp [h1, h2]⟩
    · exact ⟨[(c.name, c.food_group)], by simp [h1, h2]⟩

theorem registry_parent_isSome (consolidations : List (Str × List ChildEntry))
    (original_df : List (Str × Str)) (p : Str) (cs : List ChildEntry)
    (hmem : (p, cs) ∈ consolidations) :
    (getVal (all_ingredients_registry consolidations original_df) p).isSome := by
  obtain ⟨l1, l2, hsplit⟩ := List.append_of_mem hmem
  subst hsplit
  rw [all_ingredients_registry]
  apply getVal_isSome_foldl
  · intro m x
    by_cases h : (getVal m x.1).isSome
    · exact ⟨[], by simp [h]⟩
    · exact ⟨[(x.1, x.2)], by simp [h]⟩
  · rw [List.foldl_append, List.foldl_cons]
    apply getVal_isSome_foldl
    · intro m g
      exact registry_group_step_extends g m
    · have hstep := registry_group_step_extends (p, cs)
      set acc := l1.foldl
        (fun acc g =>
          g.2.foldl
            (fun acc2 c =>
              if c.name = g.1 then acc2
              else if (getVal acc2 c.name).isSome then acc2
              else acc2 ++ [(c.name, c.food_group)])
            (if (getVal acc g.1).isSome then acc
             else acc ++ [(g.1, determine_parent_food_group g.2)])) [] with hacc
      show (getVal (cs.foldl
        (fun acc2 c =>
          if c.name = p then acc2
          else if (getVal acc2 c.name).isSome then acc2
          else acc2 ++ [(c.name, c.food_group)])
        (if (getVal acc p).isSome then acc
         else acc ++ [(p, determine_parent_food_group cs)])) p).isSome
      apply getVal_isSome_foldl
      · intro m c
        exact registry_child_step_extends p m c
      · by_cases h : (getVal acc p).isSome
        · rw [if_pos h]
          exact h
        · rw [if_neg h]
          rw [getVal_append_none _ (Option.not_isSome_iff_eq_none.mp h)]
          rw [getVal, if_pos rfl]
          rfl

/-- C2: the claim says a parsed group with exactly one child is dropped
entirely by the finalization stage.  The code has no minimum-size check:
for the proposal text with one active child line and one commented-out
line, parsing yields a one-child CHEESE group and hierarchy generation
emits the parent node CHEESE and the edge (CHEESE, cheddar cheese). -/
theorem c2_counterexample :
    parse_consolidation_proposal
        "[CHEESE]\ncheddar cheese,dairy\n#swiss cheese,dairy\n".data =
      [("CHEESE".data, [⟨"cheddar cheese".data, "dairy".data⟩])] ∧
    (generate_hierarchy
        (parse_consolidation_proposal
          "[CHEESE]\ncheddar cheese,dairy\n#swiss cheese,dairy\n".data)
        [("cheddar cheese".data, "dairy".data), ("swiss cheese".data, "dairy".data)]).2 =
      [("CHEESE".data, "cheddar cheese".data)] ∧
    "CHEESE".data ∈ (generate_hierarchy
        (parse_consolidation_proposal
          "[CHEESE]\ncheddar cheese,dairy\n#swiss cheese,dairy\n".data)
        [("cheddar cheese".data, "dairy".data), ("swiss cheese".data, "dairy".data)]).1.map
        (fun n => n.1) := by
  refine ⟨by decide, by decide, by decide⟩

/-- C2 (amended): the finalization stage retains single-child groups
rather than dropping them: for every consolidation mapping containing a
group with exactly one child whose name differs from the parent, the
build emits the parent node and the parent-child edge; only groups with
zero children are dropped (at parse time). -/
theorem c2_theorem (consolidations : List (Str × List ChildEntry))
    (original_df : List (Str × Str)) (p : Str) (c : ChildEntry)
    (hmem : (p, [c]) ∈ consolidations) (hne : c.name ≠ p) :
    (p, c.name) ∈ (generate_hierarchy consolidations original_df).2 ∧
    p ∈ (generate_hierarchy consolidations original_df).1.map (fun n => n.1) := by
  constructor
  · show (p, c.name) ∈ parent_child_relationships consolidations
    apply List.mem_flatMap.mpr
    refine ⟨(p, [c]), hmem, ?_⟩
    simp [hne]
  · have hreg := registry_parent_isSome consolidations original_df p [c] hmem
    have hkeys := getVal_isSome_mem_keys hreg
    show p ∈ ((all_ingredients_registry consolidations original_df).map
      (fun q => (q.1, q.2, (calculate_depth (parent_child_relationships consolidations)
        ((relNames (parent_child_relationships consolidations)).length + 1) [] q.1).getD 0))).map
      (fun n => n.1)
    rw [List.map_map]
    exact hkeys

/-- C2 witness: a one-child group on a concrete input keeps its node and
edge. -/
theorem c2_witness :
    ("P".data, "A".data) ∈
      (generate_hierarchy [("P".data, [⟨"A".data, "G".data⟩])] []).2 ∧
    "P".data ∈
      (generate_hierarchy [("P".data, [⟨"A".data, "G".data⟩])] []).1.map (fun n => n.1) :=
  c2_theorem [("P".data, [⟨"A".data, "G".data⟩])] [] "P".data ⟨"A".data, "G".data⟩
    (by decide) (by decide)

/- ----------------------------------------------------------------
   Parse / serialize machinery lemmas (claims C4 and C10)
   ---------------------------------------------------------------- -/

/-- The proposal line written for one child entry. -/
def childLine (c : ChildEntry) : Str := c.name ++ ',' :: c.food_group

/-- The proposal section header line written for one parent. -/
def headerLine (p : Str) : Str := '[' :: p ++ [']']

/-- A child entry whose serialized line parses back to itself: non-blank
strip-invariant name without a comma that cannot be mistaken for a
comment or a section header, and a strip-invariant food group. -/
def goodChild (c : ChildEntry) : Prop :=
  c.name ≠ [] ∧ pyStrip c.name = c.name ∧ ',' ∉ c.name ∧
    c.name.head? ≠ some '#' ∧ c.name.head? ≠ some '[' ∧
    pyStrip c.food_group = c.food_group

instance goodChildDecidable (c : ChildEntry) : Decidable (goodChild c) :=
  inferInstanceAs (Decidable (_ ∧ _ ∧ _ ∧ _ ∧ _ ∧ _))

theorem stripL_eq_self {l : Str} (h : ∀ ch, l.head? = some ch → isPyWs ch = false) :
    stripL l = l := by
  cases l with
  | nil => rfl
  | cons c rest =>
    rw [stripL, List.dropWhile_cons, if_neg]
    rw [h c rfl]
    simp

theorem stripR_eq_self {l : Str} (h : ∀ ch, l.getLast? = some ch → isPyWs ch = false) :
    stripR l = l := by
  cases hl : l.reverse with
  | nil =>
    have : l = [] := by simpa using congrArg List.reverse hl
    simp [this, stripR]
  | cons c rest =>
    have hc : l.getLast? = some c := by
      rw [← List.head?_reverse, hl]
      rfl
    rw [stripR, hl, List.dropWhile_cons, if_neg]
    · rw [← hl, List.reverse_reverse]
    · rw [h c hc]
      simp

theorem pyStrip_eq_self {l : Str}
    (hhead : ∀ ch, l.head? = some ch → isPyWs ch = false)
    (hlast : ∀ ch, l.getLast? = some ch → isPyWs ch = false) :
    pyStrip l = l := by
  rw [pyStrip, stripL_eq_self hhead, stripR_eq_self hlast]

theorem stripL_length_le (l : Str) : (stripL l).length ≤ l.length :=
  List.Sublist.length_le (List.dropWhile_sublist _)

theorem stripR_length_le (l : Str) : (stripR l).length ≤ l.length := by
  rw [stripR]
  calc ((l.reverse.dropWhile isPyWs).reverse).length
      = (l.reverse.dropWhile isPyWs).length := List.length_reverse _
    _ ≤ l.reverse.length := List.Sublist.length_le (List.dropWhile_sublist _)
    _ = l.length := List.length_reverse _

theorem stripL_eq_of_pyStrip_eq {l : Str} (h : pyStrip l = l) : stripL l = l := by
  have h1 : l.length ≤ (stripL l).length := by
    calc l.length = (pyStrip l).length := by rw [h]
      _ ≤ (stripL l).length := stripR_length_le _
  exact (List.dropWhile_suffix _).eq_of_length_le h1

theorem stripR_eq_of_pyStrip_eq {l : Str} (h : pyStrip l = l) : stripR l = l := by
  have h1 := stripL_eq_of_pyStrip_eq h
  rw [pyStrip, h1] at h
  exact h

theorem head_not_ws_of_pyStrip_eq {l : Str} (h : pyStrip l = l) :
    ∀ ch, l.head? = some ch → isPyWs ch = false := by
  intro ch hch
  have h1 := stripL_eq_of_pyStrip_eq h
  cases l with
  | nil => cases hch
  | cons c rest =>
    cases hch
    by_contra hws
    rw [stripL, List.dropWhile_cons, if_pos (by simpa using hws)] at h1
    have := congrArg List.length h1
    have hle := List.Sublist.length_le (List.dropWhile_sublist (l := rest) isPyWs)
    simp only [List.length_cons] at this
    omega

theorem getLast_not_ws_of_pyStrip_eq {l : Str} (h : pyStrip l = l) :
    ∀ ch, l.getLast? = some ch → isPyWs ch = false := by
  intro ch hch
  have h1 := stripR_eq_of_pyStrip_eq h
  cases hl : l.reverse with
  | nil =>
    have : l = [] := by simpa using congrArg List.reverse hl
    subst this
    cases hch
  | cons c rest =>
    have hc : l.getLast? = some c := by
      rw [← List.head?_reverse, hl]
      rfl
    rw [hc] at hch
    cases hch
    by_contra hws
    rw [stripR, hl, List.dropWhile_cons, if_pos (by simpa using hws)] at h1
    have := congrArg List.length h1
    have hle := List.Sublist.length_le (List.dropWhile_sublist (l := rest) isPyWs)
    have hrev : l.length = rest.length + 1 := by
      have := congrArg List.length hl
      simpa [List.length_reverse] using this
    simp only [List.length_reverse] at this
    omega

theorem splitFirstComma_append {n : Str} (g : Str) (h : ',' ∉ n) :
    splitFirstComma (n ++ ',' :: g) = (n, g) := by
  induction n with
  | nil => simp [splitFirstComma]
  | cons c rest ih =>
    have hc : c ≠ ',' := by
      intro hc
      exact h (hc ▸ List.mem_cons_self _ _)
    rw [List.cons_append, splitFirstComma, if_neg hc,
      ih (fun hm => h (List.mem_cons_of_mem _ hm))]

theorem parse_line_blank (st : ParseState) : parse_line st [] = st := rfl

theorem parse_line_header (st : ParseState) (p : Str) :
    parse_line st (headerLine p) = ⟨setKey st.m p [], some p⟩ := by
  have hne : headerLine p ≠ [] := by simp [headerLine]
  have hhead : (headerLine p).head? = some '[' := rfl
  have hlast : (headerLine p).getLast? = some ']' := by
    rw [headerLine]
    exact List.getLast?_concat _
  have hstrip : pyStrip (headerLine p) = headerLine p := by
    apply pyStrip_eq_self
    · intro ch hch
      rw [hhead] at hch
      cases hch
      decide
    · intro ch hch
      rw [hlast] at hch
      cases hch
      decide
  have hparent : ((headerLine p).drop 1).dropLast = p := by
    rw [headerLine]
    show (p ++ [']']).dropLast = p
    exact List.dropLast_concat
  rw [parse_line]
  simp only [hstrip, if_neg hne, hhead]
  rw [if_neg (by decide : ¬ (some '[' = some '#'))]
  rw [if_pos ⟨trivial, hlast⟩, hparent]

theorem parse_line_child (m : List (Str × List ChildEntry)) (q : Str) (c : ChildEntry)
    (hq : q ≠ []) (hc : goodChild c) :
    parse_line ⟨m, some q⟩ (childLine c) = ⟨appendVal m q c, some q⟩ := by
  obtain ⟨hn_ne, hn_strip, hn_comma, hn_hash, hn_bracket, hg_strip⟩ := hc
  obtain ⟨n0, ntail, hn⟩ := List.exists_cons_of_ne_nil hn_ne
  have hlinehead : (childLine c).head? = c.name.head? := by
    rw [childLine, hn]
    rfl
  have hne : childLine c ≠ [] := by
    rw [childLine, hn]
    simp
  have hstrip : pyStrip (childLine c) = childLine c := by
    apply pyStrip_eq_self
    · intro ch hch
      rw [hlinehead] at hch
      exact head_not_ws_of_pyStrip_eq hn_strip ch hch
    · intro ch hch
      rw [childLine] at hch
      by_cases hfgne : c.food_group = []
      · rw [hfgne] at hch
        have : (c.name ++ [',']).getLast? = some ',' := List.getLast?_concat _
        rw [this] at hch
        cases hch
        decide
      · have h1 : (c.name ++ ',' :: c.food_group).getLast? = c.food_group.getLast? := by
          rw [show (',' :: c.food_group) = [','] ++ c.food_group from rfl,
            ← List.append_assoc]
          exact List.getLast?_append_of_ne_nil _ hfgne
        rw [h1] at hch
        exact getLast_not_ws_of_pyStrip_eq hg_strip ch hch
  have hmemcomma : ',' ∈ childLine c := by
    rw [childLine]
    exact List.mem_append_right _ (List.mem_cons_self _ _)
  have hsplit : splitFirstComma (childLine c) = (c.name, c.food_group) :=
    splitFirstComma_append _ hn_comma
  rw [parse_line]
  simp only [hstrip, if_neg hne, hlinehead]
  rw [if_neg (fun h => hn_hash h)]
  rw [if_neg (fun h => hn_bracket h.1)]
  simp only [if_pos (And.intro hq hmemcomma), hsplit]
  rw [hn_strip, hg_strip]

theorem appendVal_getVal_some {m : List (Str × List ChildEntry)} {q : Str}
    {u : List ChildEntry} (c : ChildEntry) (h : getVal m q = some u) :
    getVal (appendVal m q c) q = some (u ++ [c]) := by
  induction m with
  | nil => simp [getVal] at h
  | cons e rest ih =>
    obtain ⟨k0, v0⟩ := e
    by_cases hk : k0 = q
    · subst hk
      rw [getVal, if_pos rfl] at h
      cases h
      rw [appendVal, if_pos rfl, getVal, if_pos rfl]
    · rw [getVal, if_neg hk] at h
      rw [appendVal, if_neg hk, getVal, if_neg hk]
      exact ih h

theorem appendVal_getVal_none {m : List (Str × List ChildEntry)} {q : Str}
    (c : ChildEntry) (h : getVal m q = none) : appendVal m q c = m := by
  induction m with
  | nil => rfl
  | cons e rest ih =>
    obtain ⟨k0, v0⟩ := e
    by_cases hk : k0 = q
    · subst hk
      rw [getVal, if_pos rfl] at h
      cases h
    · rw [getVal, if_neg hk] at h
      rw [appendVal, if_neg hk, ih h]

theorem appendVal_getVal_other {m : List (Str × List ChildEntry)} {q k : Str}
    (c : ChildEntry) (hk : k ≠ q) : getVal (appendVal m q c) k = getVal m k := by
  induction m with
  | nil => rfl
  | cons e rest ih =>
    obtain ⟨k0, v0⟩ := e
    by_cases hk0 : k0 = q
    · subst hk0
      rw [appendVal, if_pos rfl, getVal, if_neg (fun h => hk h.symm), getVal,
        if_neg (fun h => hk h.symm)]
    · rw [appendVal, if_neg hk0, getVal, getVal]
      by_cases hkk : k0 = k
      · rw [if_pos hkk, if_pos hkk]
      · rw [if_neg hkk, if_neg hkk]
        exact ih

theorem setKey_getVal_self {α : Type} (m : List (Str × α)) (k : Str) (v : α) :
    getVal (setKey m k v) k = some v := by
  induction m with
  | nil => simp [setKey, getVal]
  | cons e rest ih =>
    obtain ⟨k0, v0⟩ := e
    by_cases hk : k0 = k
    · subst hk
      rw [setKey, if_pos rfl, getVal, if_pos rfl]
    · rw [setKey, if_neg hk, getVal, if_neg hk]
      exact ih

theorem children_fold_eq (cs : List ChildEntry) (m : List (Str × List ChildEntry))
    (q : Str) (hq : q ≠ []) (hcs : ∀ c ∈ cs, goodChild c) :
    (cs.map childLine).foldl parse_line ⟨m, some q⟩ =
      ⟨cs.foldl (fun mm c => appendVal mm q c) m, some q⟩ := by
  induction cs generalizing m with
  | nil => rfl
  | cons c cs' ih =>
    rw [List.map_cons, List.foldl_cons,
      parse_line_child m q c hq (hcs c (List.mem_cons_self _ _)), List.foldl_cons]
    exact ih _ (fun x hx => hcs x (List.mem_cons_of_mem _ hx))

theorem appendVal_fold_getVal (cs : List ChildEntry) (m : List (Str × List ChildEntry))
    (q : Str) :
    getVal (cs.foldl (fun mm c => appendVal mm q c) m) q =
      (getVal m q).map (fun u => u ++ cs) := by
  induction cs generalizing m with
  | nil =>
    cases h : getVal m q <;> simp [h]
  | cons c cs' ih =>
    rw [List.foldl_cons, ih]
    cases h : getVal m q with
    | none => rw [appendVal_getVal_none c h]; simp [h]
    | some u =>
      rw [appendVal_getVal_some c h]
      simp

theorem getVal_filter_ne_nil {m : List (Str × List ChildEntry)} {q : Str}
    {v : List ChildEntry} (h : getVal m q = some v) (hv : v ≠ []) :
    getVal (m.filter (fun p => p.2 ≠ [])) q = some v := by
  induction m with
  | nil => simp [getVal] at h
  | cons e rest ih =>
    obtain ⟨k0, v0⟩ := e
    by_cases hk : k0 = q
    · subst hk
      rw [getVal, if_pos rfl] at h
      cases h
      rw [List.filter_cons_of_pos (by simpa using hv), getVal, if_pos rfl]
    · rw [getVal, if_neg hk] at h
      by_cases hv0 : v0 = []
      · rw [List.filter_cons_of_neg (by simpa using hv0)]
        exact ih h
      · rw [List.filter_cons_of_pos (by simpa using hv0), getVal, if_neg hk]
        exact ih h

/-- C10: if a `[PARENT]` header reappears, parsing resets that parent's
child list: whatever lines preceded (including an earlier section for the
same parent and its children), the parsed result for that parent holds
exactly the children listed after its last header occurrence. -/
theorem c10_theorem (pre : List Str) (p : Str) (cs : List ChildEntry)
    (hp : p ≠ []) (hcs : ∀ c ∈ cs, goodChild c) (hne : cs ≠ []) :
    getVal (parse_proposal_lines (pre ++ headerLine p :: cs.map childLine)) p =
      some cs := by
  rw [parse_proposal_lines, List.foldl_append, List.foldl_cons]
  set st0 := pre.foldl parse_line ⟨[], none⟩ with hst0
  rw [parse_line_header st0 p, children_fold_eq cs _ p hp hcs]
  have hval : getVal (cs.foldl (fun mm c => appendVal mm p c) (setKey st0.m p [])) p =
      some cs := by
    rw [appendVal_fold_getVal, setKey_getVal_self]
    rfl
  exact getVal_filter_ne_nil hval hne

/-- C10 witness: an earlier `[P]` section with child (X, Y) is discarded
when the header `[P]` reappears followed by child (A, B). -/
theorem c10_witness :
    getVal (parse_proposal_lines
      (["[P]".data, "X,Y".data] ++ headerLine "P".data ::
        ([⟨"A".data, "B".data⟩] : List ChildEntry).map childLine)) "P".data =
      some [⟨"A".data, "B".data⟩] :=
  c10_theorem ["[P]".data, "X,Y".data] "P".data [⟨"A".data, "B".data⟩]
    (by decide) (by decide) (by decide)

/- ----------------------------------------------------------------
   Tokenizer idempotence (claim C9)
   ---------------------------------------------------------------- -/

theorem toUpper_idem (c : Char) : c.toUpper.toUpper = c.toUpper := by
  unfold Char.toUpper
  by_cases h : c.toNat ≥ 97 ∧ c.toNat ≤ 122
  · simp only [h, and_self, if_true]
    have hv : (c.toNat - 32).isValidChar := by
      left
      omega
    have ht : (Char.ofNat (c.toNat - 32)).toNat = c.toNat - 32 := by
      rw [Char.ofNat, dif_pos hv]
      simp [Char.ofNatAux, Char.toNat, UInt32.toNat, BitVec.toNat_ofNatLt]
    rw [if_neg]
    omega
  · rw [if_neg h, if_neg h]

theorem substChar_of_keep {c : Char} (h : keepChar c = true) : substChar c = c := by
  rw [substChar, if_pos h]

theorem keepChar_substChar (c : Char) : keepChar (substChar c) = true := by
  by_cases h : keepChar c = true
  · rw [substChar_of_keep h]
    exact h
  · rw [substChar, if_neg h]
    decide

/-- The adjacency relation of collapsed strings: no two neighbouring
whitespace characters. -/
def noWsPair (a b : Char) : Prop := ¬(isPyWs a = true ∧ isPyWs b = true)

theorem collapseWs_mem : ∀ (l : Str), ∀ y ∈ collapseWs l,
    y = ' ' ∨ (y ∈ l ∧ isPyWs y = false)
  | [], y, hy => by simp [collapseWs] at hy
  | [c], y, hy => by
    by_cases h : isPyWs c = true
    · rw [collapseWs, if_pos h] at hy
      left
      simpa using hy
    · rw [collapseWs, if_neg h] at hy
      right
      simp only [List.mem_singleton] at hy
      subst hy
      exact ⟨List.mem_singleton.mpr rfl, by simpa using h⟩
  | c :: d :: rest, y, hy => by
    by_cases hc : isPyWs c = true
    · by_cases hd : isPyWs d = true
      · rw [collapseWs, if_pos hc, if_pos hd] at hy
        rcases collapseWs_mem (d :: rest) y hy with h | ⟨hmem, hws⟩
        · exact Or.inl h
        · exact Or.inr ⟨List.mem_cons_of_mem _ hmem, hws⟩
      · rw [collapseWs, if_pos hc, if_neg hd] at hy
        rcases List.mem_cons.mp hy with h | h
        · exact Or.inl h
        · rcases collapseWs_mem (d :: rest) y h with h2 | ⟨hmem, hws⟩
          · exact Or.inl h2
          · exact Or.inr ⟨List.mem_cons_of_mem _ hmem, hws⟩
    · rw [collapseWs, if_neg hc] at hy
      rcases List.mem_cons.mp hy with h | h
      · subst h
        exact Or.inr ⟨List.mem_cons_self _ _, by simpa using hc⟩
      · rcases collapseWs_mem (d :: rest) y h with h2 | ⟨hmem, hws⟩
        · exact Or.inl h2
        · exact Or.inr ⟨List.mem_cons_of_mem _ hmem, hws⟩

theorem collapseWs_head_nonws {d : Char} (rest : Str) (hd : isPyWs d = false) :
    (collapseWs (d :: rest)).head? = some d := by
  cases rest with
  | nil =>
    rw [collapseWs, if_neg (by simp [hd])]
    rfl
  | cons e rest' =>
    rw [collapseWs, if_neg (by simp [hd])]
    rfl

theorem collapseWs_chain : ∀ (l : Str), List.Chain' noWsPair (collapseWs l)
  | [] => by simp [collapseWs]
  | [c] => by
    by_cases h : isPyWs c = true
    · rw [collapseWs, if_pos h]
      simp
    · rw [collapseWs, if_neg h]
      simp
  | c :: d :: rest => by
    by_cases hc : isPyWs c = true
    · by_cases hd : isPyWs d = true
      · rw [collapseWs, if_pos hc, if_pos hd]
        exact collapseWs_chain (d :: rest)
      · rw [collapseWs, if_pos hc, if_neg hd]
        apply List.chain'_cons'.mpr
        refine ⟨?_, collapseWs_chain (d :: rest)⟩
        intro y hy
        rw [collapseWs_head_nonws rest (by simpa using hd)] at hy
        cases hy
        intro hcon
        exact hd hcon.2
    · rw [collapseWs, if_neg hc]
      apply List.chain'_cons'.mpr
      refine ⟨?_, collapseWs_chain (d :: rest)⟩
      intro y _
      intro hcon
      exact hc hcon.1

theorem collapseWs_eq_self : ∀ (l : Str),
    (∀ y ∈ l, isPyWs y = true → y = ' ') → List.Chain' noWsPair l →
    collapseWs l = l
  | [], _, _ => rfl
  | [c], hall, _ => by
    by_cases h : isPyWs c = true
    · rw [collapseWs, if_pos h, hall c (List.mem_singleton.mpr rfl) h]
    · rw [collapseWs, if_neg h]
  | c :: d :: rest, hall, hchain => by
    have hRcd := (List.chain'_cons.mp hchain).1
    have htail := (List.chain'_cons.mp hchain).2
    by_cases hc : isPyWs c = true
    · have hd : isPyWs d = false := by
        by_contra hcon
        exact hRcd ⟨hc, by simpa using hcon⟩
      rw [collapseWs, if_pos hc, if_neg (by simp [hd]),
        hall c (List.mem_cons_self _ _) hc,
        collapseWs_eq_self (d :: rest) (fun y hy => hall y (List.mem_cons_of_mem _ hy)) htail]
    · rw [collapseWs, if_neg hc,
        collapseWs_eq_self (d :: rest) (fun y hy => hall y (List.mem_cons_of_mem _ hy)) htail]

theorem dropWhile_head_not (l : Str) :
    ∀ ch, (l.dropWhile isPyWs).head? = some ch → isPyWs ch = false := by
  induction l with
  | nil => intro ch h; cases h
  | cons c rest ih =>
    intro ch h
    by_cases hc : isPyWs c = true
    · rw [List.dropWhile_cons, if_pos hc] at h
      exact ih ch h
    · rw [List.dropWhile_cons, if_neg hc] at h
      cases h
      simpa using hc

theorem stripL_suffix (l : Str) : stripL l <:+ l := List.dropWhile_suffix _

theorem stripR_isPref (l : Str) : stripR l <+: l := by
  have h := List.dropWhile_suffix (l := l.reverse) isPyWs
  have h2 := h.reverse
  rwa [List.reverse_reverse] at h2

theorem pyStrip_head_not (l : Str) :
    ∀ ch, (pyStrip l).head? = some ch → isPyWs ch = false := by
  intro ch h
  rw [pyStrip] at h
  obtain ⟨t, ht⟩ := stripR_isPref (stripL l)
  apply dropWhile_head_not l ch
  show (stripL l).head? = some ch
  rw [← ht, List.head?_append, h]
  rfl

theorem pyStrip_getLast_not (l : Str) :
    ∀ ch, (pyStrip l).getLast? = some ch → isPyWs ch = false := by
  intro ch h
  rw [pyStrip, stripR, ← List.head?_reverse, List.reverse_reverse] at h
  exact dropWhile_head_not _ ch h

theorem pyStrip_idem (l : Str) : pyStrip (pyStrip l) = pyStrip l :=
  pyStrip_eq_self (pyStrip_head_not l) (pyStrip_getLast_not l)

theorem pyStrip_subset {l : Str} : ∀ y ∈ pyStrip l, y ∈ l := by
  intro y hy
  have h1 : y ∈ stripL l := (stripR_isPref (stripL l)).subset hy
  exact (stripL_suffix l).subset h1

theorem pyStrip_chain {l : Str} (h : List.Chain' noWsPair l) :
    List.Chain' noWsPair (pyStrip l) :=
  List.Chain'.prefix (h.suffix (stripL_suffix l)) (stripR_isPref (stripL l))

theorem clean_chars (name : Str) :
    ∀ y ∈ clean_ingredient_name name,
      keepChar y = true ∧ y.toUpper = y ∧ (isPyWs y = true → y = ' ') := by
  intro y hy
  rw [clean_ingredient_name] at hy
  have hy2 := pyStrip_subset y hy
  rcases collapseWs_mem _ y hy2 with hsp | ⟨hmem, hws⟩
  · subst hsp
    refine ⟨by decide, by decide, fun _ => rfl⟩
  · obtain ⟨z, hz, hzy⟩ := List.mem_map.mp hmem
    obtain ⟨x, _, hxz⟩ := List.mem_map.mp (pyStrip_subset z hz)
    subst hzy
    refine ⟨keepChar_substChar z, ?_, ?_⟩
    · by_cases hk : keepChar z = true
      · rw [substChar_of_keep hk]
        subst hxz
        exact toUpper_idem x
      · rw [substChar, if_neg hk]
        decide
    · intro hwsy
      rw [hwsy] at hws
      cases hws

theorem clean_chain (name : Str) :
    List.Chain' noWsPair (clean_ingredient_name name) := by
  rw [clean_ingredient_name]
  exact pyStrip_chain (collapseWs_chain _)

theorem clean_idem (name : Str) :
    clean_ingredient_name (clean_ingredient_name name) = clean_ingredient_name name := by
  have hchars := clean_chars name
  have hupper : (clean_ingredient_name name).map Char.toUpper = clean_ingredient_name name := by
    have h1 : (clean_ingredient_name name).map Char.toUpper =
        (clean_ingredient_name name).map (fun c => c) :=
      List.map_congr_left (fun a ha => (hchars a ha).2.1)
    rw [h1, List.map_id']
  have hstrip1 : pyStrip (clean_ingredient_name name) = clean_ingredient_name name := by
    rw [clean_ingredient_name]
    exact pyStrip_idem _
  have hsubst : (clean_ingredient_name name).map substChar = clean_ingredient_name name := by
    have h1 : (clean_ingredient_name name).map substChar =
        (clean_ingredient_name name).map (fun c => c) :=
      List.map_congr_left (fun a ha => substChar_of_keep (hchars a ha).1)
    rw [h1, List.map_id']
  have hcollapse : collapseWs (clean_ingredient_name name) = clean_ingredient_name name :=
    collapseWs_eq_self _ (fun y hy => (hchars y hy).2.2) (clean_chain name)
  conv_lhs => rw [clean_ingredient_name]
  rw [hupper, hstrip1, hsubst, hcollapse, hstrip1]

/-- C9: tokenization is idempotent - extracting meaningful words from the
cleaned form of a string yields exactly the same word sequence as
extracting them from the raw string (cleaning is idempotent, and
extraction tokenizes the cleaned form). -/
theorem c9_theorem (name : Str) :
    extract_meaningful_words (clean_ingredient_name name) =
      extract_meaningful_words name := by
  rw [extract_meaningful_words, extract_meaningful_words, clean_idem]

/- ----------------------------------------------------------------
   Serialize-parse round trip (claim C4)
   ---------------------------------------------------------------- -/

/-- The (parent, child entry) triples listed by a group mapping: each
carries the parent name, the child name and the child's food group. -/
def group_triples (gs : List (Str × List ChildEntry)) : List (Str × ChildEntry) :=
  gs.flatMap (fun g => g.2.map (fun c => (g.1, c)))

theorem splitNl_append {a : Str} (t : Str) (h : '\n' ∉ a) :
    splitNl (a ++ '\n' :: t) = a :: splitNl t := by
  induction a with
  | nil =>
    rw [List.nil_append, splitNl, if_pos rfl]
  | cons c a' ih =>
    have hc : c ≠ '\n' := fun hc => h (hc ▸ List.mem_cons_self _ _)
    rw [List.cons_append, splitNl, if_neg hc,
      ih (fun hm => h (List.mem_cons_of_mem _ hm))]

theorem splitNl_flat (lines : List Str) (h : ∀ a ∈ lines, '\n' ∉ a) :
    splitNl (lines.flatMap (fun l => l ++ ['\n'])) = lines ++ [[]] := by
  induction lines with
  | nil => rfl
  | cons a rest ih =>
    rw [List.flatMap_cons, List.append_assoc]
    show splitNl (a ++ '\n' :: rest.flatMap (fun l => l ++ ['\n'])) = _
    rw [splitNl_append _ (h a (List.mem_cons_self _ _)),
      ih (fun x hx => h x (List.mem_cons_of_mem _ hx))]
    rfl

theorem setKey_fresh {m : List (Str × List ChildEntry)} {p : Str}
    (v : List ChildEntry) (h : ∀ q ∈ m, q.1 ≠ p) : setKey m p v = m ++ [(p, v)] := by
  induction m with
  | nil => rfl
  | cons e rest ih =>
    rw [setKey, if_neg (h e (List.mem_cons_self _ _)),
      ih (fun q hq => h q (List.mem_cons_of_mem _ hq)), List.cons_append]

theorem appendVal_fresh_append {m0 : List (Str × List ChildEntry)} {p : Str}
    (u : List ChildEntry) (c : ChildEntry) (h : ∀ q ∈ m0, q.1 ≠ p) :
    appendVal (m0 ++ [(p, u)]) p c = m0 ++ [(p, u ++ [c])] := by
  induction m0 with
  | nil => simp [appendVal]
  | cons e rest ih =>
    rw [List.cons_append, appendVal, if_neg (h e (List.mem_cons_self _ _)),
      ih (fun q hq => h q (List.mem_cons_of_mem _ hq)), List.cons_append]

theorem appendVal_fold_fresh {m0 : List (Str × List ChildEntry)} {p : Str}
    (cs : List ChildEntry) (u : List ChildEntry) (h : ∀ q ∈ m0, q.1 ≠ p) :
    cs.foldl (fun mm c => appendVal mm p c) (m0 ++ [(p, u)]) =
      m0 ++ [(p, u ++ cs)] := by
  induction cs generalizing u with
  | nil => simp
  | cons c cs' ih =>
    rw [List.foldl_cons, appendVal_fresh_append u c h, ih (u ++ [c])]
    simp

theorem group_fold (p : Str) (cs : List ChildEntry)
    (m : List (Str × List ChildEntry)) (cur : Option Str)
    (hp : p ≠ []) (hcs : ∀ c ∈ cs, goodChild c) (hfresh : ∀ q ∈ m, q.1 ≠ p) :
    ((headerLine p :: cs.map childLine ++ [[]]).foldl parse_line ⟨m, cur⟩) =
      ⟨m ++ [(p, cs)], some p⟩ := by
  rw [List.foldl_append]
  have h1 : (headerLine p :: cs.map childLine).foldl parse_line ⟨m, cur⟩ =
      ⟨m ++ [(p, cs)], some p⟩ := by
    rw [List.foldl_cons, parse_line_header, setKey_fresh [] hfresh,
      children_fold_eq cs _ p hp hcs, appendVal_fold_fresh cs [] hfresh]
    simp
  rw [h1]
  simp only [List.foldl_cons, List.foldl_nil, parse_line_blank]

theorem body_fold (L : List (Str × List ChildEntry))
    (m : List (Str × List ChildEntry)) (cur : Option Str)
    (hnodup : (L.map (fun g => g.1)).Nodup)
    (hp : ∀ g ∈ L, g.1 ≠ [])
    (hcs : ∀ g ∈ L, ∀ c ∈ g.2, goodChild c)
    (hfresh : ∀ g ∈ L, ∀ q ∈ m, q.1 ≠ g.1) :
    ((L.flatMap (fun g => headerLine g.1 :: g.2.map childLine ++ [[]])).foldl
      parse_line ⟨m, cur⟩).m = m ++ L := by
  induction L generalizing m cur with
  | nil => simp
  | cons g rest ih =>
    rw [List.flatMap_cons, List.foldl_append,
      group_fold g.1 g.2 m cur (hp g (List.mem_cons_self _ _))
        (hcs g (List.mem_cons_self _ _)) (fun q hq => hfresh g (List.mem_cons_self _ _) q hq)]
    have hnod := hnodup
    rw [List.map_cons, List.nodup_cons] at hnod
    have hres := ih (m ++ [(g.1, g.2)]) (some g.1)
      hnod.2
      (fun x hx => hp x (List.mem_cons_of_mem _ hx))
      (fun x hx => hcs x (List.mem_cons_of_mem _ hx))
      (fun x hx q hq => by
        rcases List.mem_append.mp hq with hq1 | hq2
        · exact hfresh x (List.mem_cons_of_mem _ hx) q hq1
        · have hqe : q = (g.1, g.2) := List.mem_singleton.mp hq2
          subst hqe
          show g.1 ≠ x.1
          intro hcon
          exact hnod.1 (by rw [hcon]; exact List.mem_map.mpr ⟨x, hx, rfl⟩))
    rw [hres, List.append_assoc]
    rfl

theorem header_lines_fold :
    proposalHeaderLines.foldl parse_line ⟨[], none⟩ = ⟨[], none⟩ := by decide

theorem group_triples_filter (l : List (Str × List ChildEntry)) :
    group_triples (l.filter (fun p => p.2 ≠ [])) = group_triples l := by
  induction l with
  | nil => rfl
  | cons g rest ih =>
    by_cases h : g.2 = []
    · rw [List.filter_cons_of_neg (by simpa using h), ih]
      show group_triples rest = group_triples (g :: rest)
      rw [group_triples, group_triples, List.flatMap_cons, h]
      rfl
    · rw [List.filter_cons_of_pos (by simpa using h)]
      show group_triples (g :: rest.filter (fun p => p.2 ≠ [])) = _
      rw [group_triples, List.flatMap_cons, group_triples, List.flatMap_cons]
      congr 1

theorem perm_flatMap_both {α β : Type} {l₁ l₂ : List α} {f g : α → List β}
    (h : l₁.Perm l₂) (hf : ∀ a ∈ l₂, (f a).Perm (g a)) :
    (l₁.flatMap f).Perm (l₂.flatMap g) :=
  (h.flatMap_right f).trans (List.Perm.flatMap_left l₂ hf)

/-- The concrete group mapping of the C4 counterexample: a non-blank
parent and a non-blank child name that happens to contain a comma. -/
def gsComma : List (Str × List ChildEntry) :=
  [("X".data, [⟨"A,B".data, "G".data⟩])]

/-- C4: the claim promises the round trip for every mapping with
non-blank parent and child names.  The child name "A,B" is non-blank,
but its serialized line "A,B,G" is split at the first comma on parsing,
yielding the triple (X, A, "B,G") instead of (X, "A,B", G). -/
theorem c4_counterexample :
    ¬ ((group_triples (parse_consolidation_proposal
        (generate_consolidation_proposal gsComma))).toFinset =
      (group_triples gsComma).toFinset) := by
  decide

/-- C4 (amended): for every group mapping whose parent names are
non-blank without newlines and whose child entries respect the line
format (non-blank strip-invariant comma-free names not opening a comment
or section header, strip-invariant food groups, no newlines), and whose
parent names are pairwise distinct, serializing to proposal text and
parsing back preserves the set of (parent, child name, food group)
triples. -/
theorem c4_theorem (gs : List (Str × List ChildEntry))
    (hkeys : (gs.map (fun g => g.1)).Nodup)
    (hps : ∀ g ∈ gs, g.1 ≠ [] ∧ '\n' ∉ g.1)
    (hcs : ∀ g ∈ gs, ∀ c ∈ g.2, goodChild c ∧ '\n' ∉ c.name ∧ '\n' ∉ c.food_group) :
    (group_triples (parse_consolidation_proposal
        (generate_consolidation_proposal gs))).toFinset =
      (group_triples gs).toFinset := by
  set L := (gs.insertionSort sizeGe).map
    (fun g => (g.1, g.2.insertionSort nameLe)) with hL
  have hmemL : ∀ g ∈ L, ∃ g0 ∈ gs, g.1 = g0.1 ∧ ∀ c ∈ g.2, c ∈ g0.2 := by
    intro g hg
    rw [hL] at hg
    obtain ⟨g0, hg0, hgg⟩ := List.mem_map.mp hg
    refine ⟨g0, (List.perm_insertionSort sizeGe gs).subset hg0, ?_, ?_⟩
    · rw [← hgg]
    · intro c hc
      rw [← hgg] at hc
      exact (List.perm_insertionSort nameLe g0.2).subset hc
  have hbody : proposalBodyLines gs =
      L.flatMap (fun g => headerLine g.1 :: g.2.map childLine ++ [[]]) := by
    rw [hL, List.flatMap_map]
    rfl
  have hnlBody : ∀ a ∈ proposalBodyLines gs, '\n' ∉ a := by
    rw [hbody]
    intro a ha hnl
    obtain ⟨g, hg, hga⟩ := List.mem_flatMap.mp ha
    obtain ⟨g0, hg0, hgp, hgc⟩ := hmemL g hg
    rcases List.mem_cons.mp hga with h1 | h2
    · subst h1
      rw [headerLine] at hnl
      rcases List.mem_append.mp hnl with h3 | h4
      · rcases List.mem_cons.mp h3 with h5 | h6
        · cases h5
        · exact (hps g0 hg0).2 (hgp ▸ h6)
      · simp at h4
    · rcases List.mem_append.mp h2 with h3 | h4
      · obtain ⟨c, hc, hcl⟩ := List.mem_map.mp h3
        have hcc := hcs g0 hg0 c (hgc c hc)
        subst hcl
        rw [childLine] at hnl
        rcases List.mem_append.mp hnl with h5 | h6
        · exact hcc.2.1 h5
        · rcases List.mem_cons.mp h6 with h7 | h8
          · cases h7
          · exact hcc.2.2 h8
      · have : a = [] := List.mem_singleton.mp h4
        subst this
        cases hnl
  have hsplit : splitNl (generate_consolidation_proposal gs) =
      (proposalHeaderLines ++ proposalBodyLines gs) ++ [[]] := by
    rw [generate_consolidation_proposal]
    apply splitNl_flat
    intro a ha
    rcases List.mem_append.mp ha with h1 | h2
    · have hnlH : ∀ x ∈ proposalHeaderLines, '\n' ∉ x := by decide
      exact hnlH a h1
    · exact hnlBody a h2
  have hkeysL : (L.map (fun g => g.1)).Nodup := by
    rw [hL, List.map_map]
    have hperm : ((gs.insertionSort sizeGe).map
        (fun g => ((g.1, g.2.insertionSort nameLe) : Str × List ChildEntry).1)).Perm
        (gs.map (fun g => g.1)) :=
      (List.perm_insertionSort sizeGe gs).map _
    exact hperm.nodup_iff.mpr hkeys
  have hparse : parse_consolidation_proposal (generate_consolidation_proposal gs) =
      L.filter (fun p => p.2 ≠ []) := by
    rw [parse_consolidation_proposal, hsplit, parse_proposal_lines,
      List.foldl_append, List.foldl_append, header_lines_fold]
    have hblank : ∀ st : ParseState, [([] : Str)].foldl parse_line st = st := by
      intro st
      rw [List.foldl_cons, parse_line_blank, List.foldl_nil]
    rw [hblank]
    have hbf := body_fold L [] none hkeysL
      (fun g hg => by
        obtain ⟨g0, hg0, hgp, _⟩ := hmemL g hg
        rw [hgp]
        exact (hps g0 hg0).1)
      (fun g hg c hc => by
        obtain ⟨g0, hg0, _, hgc⟩ := hmemL g hg
        exact (hcs g0 hg0 c (hgc c hc)).1)
      (fun g _ q hq => by cases hq)
    rw [hbody, hbf]
    rfl
  have hperm2 : (group_triples L).Perm (group_triples gs) := by
    rw [group_triples, group_triples, hL, List.flatMap_map]
    apply perm_flatMap_both (List.perm_insertionSort sizeGe gs)
    intro a _
    exact (List.perm_insertionSort nameLe a.2).map _
  calc (group_triples (parse_consolidation_proposal
          (generate_consolidation_proposal gs))).toFinset
      = (group_triples (L.filter (fun p => p.2 ≠ []))).toFinset := by rw [hparse]
    _ = (group_triples L).toFinset := by rw [group_triples_filter]
    _ = (group_triples gs).toFinset := List.toFinset_eq_of_perm _ _ hperm2

/-- A format-respecting two-group mapping used to instantiate the round
trip. -/
def gsRound : List (Str × List ChildEntry) :=
  [("CHEESE".data, [⟨"swiss cheese".data, "dairy".data⟩,
      ⟨"cheddar cheese".data, "dairy".data⟩]),
   ("JUICE".data, [⟨"orange juice".data, "fruit".data⟩,
      ⟨"apple juice".data, "fruit".data⟩,
      ⟨"grape juice".data, "fruit".data⟩])]

/-- C4 witness: the amended round trip applied to a concrete
format-respecting mapping. -/
theorem c4_witness :
    (group_triples (parse_consolidation_proposal
        (generate_consolidation_proposal gsRound))).toFinset =
      (group_triples gsRound).toFinset :=
  c4_theorem gsRound (by decide) (by decide) (by decide)
